import Mathlib

/-!
Verification of a minimal SQL tokenizer and recursive-descent parser.

The development shallowly embeds the two source modules (`tokenizer.rs`,
`parser.rs`) as executable Lean functions over `List Char` / `List Token`.
The data-model modules (`token.rs`, `statement.rs`) are not present in the
sources, so their types are modelled from the spec's data-model section.

Character classification notes: the Rust code uses `char::is_whitespace`
(Unicode White_Space, modelled exactly below), `char::is_digit(10)` (ASCII
digits, exact), the ASCII ranges of the dispatch `match` (exact), and
`char::is_alphanumeric` / `str::to_uppercase` (Unicode-wide in Rust; modelled
here on their ASCII fragment, which covers the whole SQL dialect).

The Rust tokenizer is a lazy iterator and the parser pulls tokens on demand;
the embedding materialises the finite token stream first, which produces the
same tokens in the same order, and runs the parser on the token list.  The
parser's one-token-lookahead buffer (`current_token`, with `Eof` substituted
once the stream is exhausted) is modelled by reading `ts.headD .eof` from the
remaining token list.  Recursion in the parser is measured by an explicit
fuel argument; a distinguished `PError.noFuel` result marks fuel exhaustion,
and the development proves the fuel budget chosen by `parseStatement` is
never exhausted.
-/

namespace SqlAst

/-- Modelled from the spec: the closed keyword enumeration of module
`token.rs`, which is absent from the sources (spec section 3).  `From`,
`Where` and `By` are Lean keywords, hence the primed names. -/
inductive Keyword where
  | select
  | create
  | table
  | where'
  | order
  | by'
  | asc
  | desc
  | from'
  | and
  | or
  | not
  | true
  | false
  | primary
  | key
  | check
  | int
  | bool
  | varchar
  | null
deriving DecidableEq

/-- Modelled from the spec: the token type of module `token.rs`, absent from
the sources (spec section 3 and the tokenizer/parser code that consumes it).
Text payloads are kept as `List Char`. -/
inductive Token where
  | number (n : Nat)
  | string (s : List Char)
  | identifier (s : List Char)
  | keyword (k : Keyword)
  | leftParentheses
  | rightParentheses
  | greaterThan
  | greaterThanOrEqual
  | lessThan
  | lessThanOrEqual
  | equal
  | notEqual
  | star
  | divide
  | minus
  | plus
  | comma
  | semicolon
  | eof
  | invalid (c : Char)
deriving DecidableEq

/-- Modelled from the spec: unary operators of module `statement.rs`
(spec section 3). -/
inductive UnaryOperator where
  | minus
  | plus
  | not
  | asc
  | desc
deriving DecidableEq

/-- Modelled from the spec: binary operators of module `statement.rs`
(spec section 3). -/
inductive BinaryOperator where
  | or
  | and
  | equal
  | notEqual
  | greaterThan
  | greaterThanOrEqual
  | lessThan
  | lessThanOrEqual
  | plus
  | minus
  | multiply
  | divide
deriving DecidableEq

/-- Modelled from the spec: the expression tree of module `statement.rs`
(spec section 3). -/
inductive Expression where
  | number (n : Nat)
  | string (s : List Char)
  | bool (b : Bool)
  | identifier (s : List Char)
  | unaryOperation (operand : Expression) (operator : UnaryOperator)
  | binaryOperation (left_operand : Expression) (operator : BinaryOperator)
      (right_operand : Expression)
deriving DecidableEq

/-- Modelled from the spec: column types of module `statement.rs`
(spec section 3); the `usize` VARCHAR size is a `Nat`. -/
inductive DBType where
  | int
  | bool
  | varchar (size : Nat)
deriving DecidableEq

/-- Modelled from the spec: column constraints of module `statement.rs`
(spec section 3). -/
inductive Constraint where
  | primaryKey
  | notNull
  | check (e : Expression)
deriving DecidableEq

/-- Modelled from the spec: a column definition of module `statement.rs`
(spec section 3). -/
structure TableColumn where
  column_name : List Char
  column_type : DBType
  constraints : List Constraint
deriving DecidableEq

/-- Modelled from the spec: the statement type of module `statement.rs`
(spec section 3).  `from`/`where` are Lean keywords, hence the primes. -/
inductive Statement where
  | select (columns : List Expression) (from' : List Char)
      (where' : Option Expression) (orderby : List Expression)
  | createTable (table_name : List Char) (column_list : List TableColumn)
deriving DecidableEq

end SqlAst

namespace SqlTokenizer

open SqlAst

/-- Rust `char::is_whitespace`: the Unicode White_Space property, listed
exactly. -/
def rustIsWhitespace (c : Char) : Bool :=
  (0x9 ≤ c.toNat && c.toNat ≤ 0xd) || c.toNat = 0x20 || c.toNat = 0x85 ||
  c.toNat = 0xa0 || c.toNat = 0x1680 ||
  (0x2000 ≤ c.toNat && c.toNat ≤ 0x200a) ||
  c.toNat = 0x2028 || c.toNat = 0x2029 || c.toNat = 0x202f ||
  c.toNat = 0x205f || c.toNat = 0x3000

/-- Rust `char::is_digit(10)`: exactly the ASCII digits. -/
def isAsciiDigit (c : Char) : Bool :=
  '0' ≤ c && c ≤ '9'

/-- The tokenizer dispatch arm for words: Rust pattern
`'a'..='z' | 'A'..='Z' | '_'`. -/
def isWordStart (c : Char) : Bool :=
  ('a' ≤ c && c ≤ 'z') || ('A' ≤ c && c ≤ 'Z') || c = '_'

/-- Rust `char::is_alphanumeric || c == '_'`, the identifier-continuation
test, on its ASCII fragment (Rust's version also accepts non-ASCII Unicode
alphanumerics). -/
def isWordContinue (c : Char) : Bool :=
  ('a' ≤ c && c ≤ 'z') || ('A' ≤ c && c ≤ 'Z') || isAsciiDigit c || c = '_'

/-- Rust `str::to_uppercase`, character-wise, on its ASCII fragment. -/
def toUpperChar (c : Char) : Char :=
  if 'a' ≤ c && c ≤ 'z' then Char.ofNat (c.toNat - 32) else c

/-- `Tokenizer::skip_whitespace`: drop leading whitespace. -/
def skipWhitespace (cs : List Char) : List Char :=
  cs.dropWhile rustIsWhitespace

/-- Numeric value of a digit run (the value `str::parse::<u64>` computes
before its range check). -/
def digitsToNat (s : List Char) : Nat :=
  s.foldl (fun acc c => 10 * acc + (c.toNat - 48)) 0

/-- `u64::MAX`. -/
def u64Max : Nat := 18446744073709551615

/-- `Tokenizer::read_number`: greedily consume following digits and parse the
whole run as a `u64`; on overflow the token is `Invalid` carrying the first
digit.  Returns the token and the remaining input. -/
def readNumber (first : Char) (cs : List Char) : Token × List Char :=
  let digits := first :: cs.takeWhile isAsciiDigit
  let rest := cs.dropWhile isAsciiDigit
  if digitsToNat digits ≤ u64Max then (Token.number (digitsToNat digits), rest)
  else (Token.invalid first, rest)

/-- The keyword table of `read_identifier_or_keyword`, keyed by the
uppercased spelling. -/
def lookupKeyword (s : List Char) : Option Keyword :=
  if s = "SELECT".toList then some Keyword.select
  else if s = "CREATE".toList then some Keyword.create
  else if s = "TABLE".toList then some Keyword.table
  else if s = "WHERE".toList then some Keyword.where'
  else if s = "ORDER".toList then some Keyword.order
  else if s = "BY".toList then some Keyword.by'
  else if s = "ASC".toList then some Keyword.asc
  else if s = "DESC".toList then some Keyword.desc
  else if s = "FROM".toList then some Keyword.from'
  else if s = "AND".toList then some Keyword.and
  else if s = "OR".toList then some Keyword.or
  else if s = "NOT".toList then some Keyword.not
  else if s = "TRUE".toList then some Keyword.true
  else if s = "FALSE".toList then some Keyword.false
  else if s = "PRIMARY".toList then some Keyword.primary
  else if s = "KEY".toList then some Keyword.key
  else if s = "CHECK".toList then some Keyword.check
  else if s = "INT".toList then some Keyword.int
  else if s = "BOOL".toList then some Keyword.bool
  else if s = "VARCHAR".toList then some Keyword.varchar
  else if s = "NULL".toList then some Keyword.null
  else none

/-- `Tokenizer::read_identifier_or_keyword`: greedily consume alphanumerics
and underscores, uppercase the captured text and look it up in the keyword
table; on no match emit an `Identifier` carrying the original text. -/
def readIdentifierOrKeyword (first : Char) (cs : List Char) :
    Token × List Char :=
  let ident := first :: cs.takeWhile isWordContinue
  let rest := cs.dropWhile isWordContinue
  match lookupKeyword (ident.map toUpperChar) with
  | some k => (Token.keyword k, rest)
  | none => (Token.identifier ident, rest)

/-- Helper for `read_string`: the characters before the closing quote and
the remaining input, or `none` when the quote never closes. -/
def takeUntilQuote (quote : Char) : List Char → Option (List Char × List Char)
  | [] => none
  | c :: rest =>
    if c = quote then some ([], rest)
    else (takeUntilQuote quote rest).map (fun p => (c :: p.1, p.2))

/-- `Tokenizer::read_string`: consume characters until the matching quote;
if the string is never terminated, emit `Invalid` carrying the opening quote
(with the input exhausted). -/
def readString (quote : Char) (cs : List Char) : Token × List Char :=
  match takeUntilQuote quote cs with
  | some (s, rest) => (Token.string s, rest)
  | none => (Token.invalid quote, [])

/-- The token-classification `match` of `<Tokenizer as Iterator>::next`:
classify the first non-whitespace character and scan one token, returning it
with the remaining input. -/
def dispatchToken (c : Char) (rest : List Char) : Token × List Char :=
  if isAsciiDigit c then readNumber c rest
  else if isWordStart c then readIdentifierOrKeyword c rest
  else if c = '\'' || c = '"' then readString c rest
  else if c = '(' then (Token.leftParentheses, rest)
  else if c = ')' then (Token.rightParentheses, rest)
  else if c = '>' then
    if rest.head? = some '=' then (Token.greaterThanOrEqual, rest.tail)
    else (Token.greaterThan, rest)
  else if c = '<' then
    if rest.head? = some '=' then (Token.lessThanOrEqual, rest.tail)
    else (Token.lessThan, rest)
  else if c = '=' then (Token.equal, rest)
  else if c = '!' then
    if rest.head? = some '=' then (Token.notEqual, rest.tail)
    else (Token.invalid '!', rest)
  else if c = '*' then (Token.star, rest)
  else if c = '/' then (Token.divide, rest)
  else if c = '-' then (Token.minus, rest)
  else if c = '+' then (Token.plus, rest)
  else if c = ',' then (Token.comma, rest)
  else if c = ';' then (Token.semicolon, rest)
  else (Token.invalid c, rest)

/-- `<Tokenizer as Iterator>::next`: skip whitespace, stop at exhausted
input (the `?`), otherwise classify and scan one token. -/
def nextToken (cs : List Char) : Option (Token × List Char) :=
  match skipWhitespace cs with
  | [] => none
  | c :: rest => some (dispatchToken c rest)

/-- The token stream, materialised with a structural fuel argument; each
produced token consumes at least one character, so `cs.length` fuel is
always enough (`tokenizeAux_irrel` below). -/
def tokenizeAux : Nat → List Char → List Token
  | 0, _ => []
  | fuel + 1, cs =>
    match nextToken cs with
    | none => []
    | some (t, rest) => t :: tokenizeAux fuel rest

/-- The full (finite) token stream of an input. -/
def tokenize (cs : List Char) : List Token :=
  tokenizeAux cs.length cs

end SqlTokenizer

namespace SqlParser

open SqlAst SqlTokenizer

/-- Parser errors: a descriptive message (Rust's `Err(String)`), or the
fuel-exhaustion marker of the embedding, proved unreachable below. -/
inductive PError where
  | msg (s : String)
  | noFuel
deriving DecidableEq

/-- A parsing step returns the parsed value plus the remaining token
stream, or an error. -/
abbrev PResult (α : Type) := Except PError (α × List Token)

/-- The parser's one-token lookahead: the head of the remaining stream,
with `Eof` substituted once the stream is exhausted (`Parser::new` /
`Parser::advance`). -/
def currentToken (ts : List Token) : Token :=
  ts.headD Token.eof

/-- Rust `#[derive(Debug)]` rendering of a keyword. -/
def reprKeyword : Keyword → String
  | Keyword.select => "Select"
  | Keyword.create => "Create"
  | Keyword.table => "Table"
  | Keyword.where' => "Where"
  | Keyword.order => "Order"
  | Keyword.by' => "By"
  | Keyword.asc => "Asc"
  | Keyword.desc => "Desc"
  | Keyword.from' => "From"
  | Keyword.and => "And"
  | Keyword.or => "Or"
  | Keyword.not => "Not"
  | Keyword.true => "True"
  | Keyword.false => "False"
  | Keyword.primary => "Primary"
  | Keyword.key => "Key"
  | Keyword.check => "Check"
  | Keyword.int => "Int"
  | Keyword.bool => "Bool"
  | Keyword.varchar => "Varchar"
  | Keyword.null => "Null"

/-- Rust `#[derive(Debug)]` rendering of a token, used only inside error
messages (string payloads are rendered without Rust's escaping of exotic
characters, which no error text in the claims depends on). -/
def reprToken : Token → String
  | Token.number n => "Number(" ++ toString n ++ ")"
  | Token.string s => "String(\x22" ++ String.mk s ++ "\x22)"
  | Token.identifier s => "Identifier(\x22" ++ String.mk s ++ "\x22)"
  | Token.keyword k => "Keyword(" ++ reprKeyword k ++ ")"
  | Token.leftParentheses => "LeftParentheses"
  | Token.rightParentheses => "RightParentheses"
  | Token.greaterThan => "GreaterThan"
  | Token.greaterThanOrEqual => "GreaterThanOrEqual"
  | Token.lessThan => "LessThan"
  | Token.lessThanOrEqual => "LessThanOrEqual"
  | Token.equal => "Equal"
  | Token.notEqual => "NotEqual"
  | Token.star => "Star"
  | Token.divide => "Divide"
  | Token.minus => "Minus"
  | Token.plus => "Plus"
  | Token.comma => "Comma"
  | Token.semicolon => "Semicolon"
  | Token.eof => "Eof"
  | Token.invalid c => "Invalid(\x27" ++ String.mk [c] ++ "\x27)"

/-- `Parser::expect_token`: consume the current token when it equals the
expected one, otherwise fail. -/
def expectToken (expected : Token) (ts : List Token) : PResult Unit :=
  if currentToken ts = expected then Except.ok ((), ts.tail)
  else
    Except.error (PError.msg ("Expected " ++ reprToken expected ++ ", got " ++
      reprToken (currentToken ts)))

/-- `Parser::get_precedence`: the fixed binding powers of the binary
operators. -/
def getPrecedence : BinaryOperator → Nat
  | BinaryOperator.or => 1
  | BinaryOperator.and => 2
  | BinaryOperator.equal => 3
  | BinaryOperator.notEqual => 3
  | BinaryOperator.greaterThan => 4
  | BinaryOperator.greaterThanOrEqual => 4
  | BinaryOperator.lessThan => 4
  | BinaryOperator.lessThanOrEqual => 4
  | BinaryOperator.plus => 5
  | BinaryOperator.minus => 5
  | BinaryOperator.multiply => 6
  | BinaryOperator.divide => 6

/-- `Parser::get_binary_operator`: which tokens denote binary operators. -/
def getBinaryOperator : Token → Option BinaryOperator
  | Token.plus => some BinaryOperator.plus
  | Token.minus => some BinaryOperator.minus
  | Token.star => some BinaryOperator.multiply
  | Token.divide => some BinaryOperator.divide
  | Token.greaterThan => some BinaryOperator.greaterThan
  | Token.greaterThanOrEqual => some BinaryOperator.greaterThanOrEqual
  | Token.lessThan => some BinaryOperator.lessThan
  | Token.lessThanOrEqual => some BinaryOperator.lessThanOrEqual
  | Token.equal => some BinaryOperator.equal
  | Token.notEqual => some BinaryOperator.notEqual
  | Token.keyword Keyword.and => some BinaryOperator.and
  | Token.keyword Keyword.or => some BinaryOperator.or
  | _ => none

mutual

/-- `Parser::parse_primary`: consume the current token, then build the
primary atom, recursing (at binding power 7 for prefix unaries, 0 inside
parentheses) where the atom contains a subexpression. -/
def parsePrimary : Nat → List Token → PResult Expression
  | 0, _ => Except.error PError.noFuel
  | fuel + 1, ts =>
    match currentToken ts with
    | Token.number n => Except.ok (Expression.number n, ts.tail)
    | Token.string s => Except.ok (Expression.string s, ts.tail)
    | Token.identifier s => Except.ok (Expression.identifier s, ts.tail)
    | Token.keyword Keyword.true => Except.ok (Expression.bool Bool.true, ts.tail)
    | Token.keyword Keyword.false => Except.ok (Expression.bool Bool.false, ts.tail)
    | Token.star => Except.ok (Expression.identifier ['*'], ts.tail)
    | Token.leftParentheses =>
      match parseExpression fuel 0 ts.tail with
      | Except.error e => Except.error e
      | Except.ok (e, ts2) =>
        if currentToken ts2 = Token.rightParentheses then Except.ok (e, ts2.tail)
        else Except.error (PError.msg "Expected closing parenthesis")
    | Token.minus =>
      match parseExpression fuel 7 ts.tail with
      | Except.error e => Except.error e
      | Except.ok (e, ts2) =>
        Except.ok (Expression.unaryOperation e UnaryOperator.minus, ts2)
    | Token.plus =>
      match parseExpression fuel 7 ts.tail with
      | Except.error e => Except.error e
      | Except.ok (e, ts2) =>
        Except.ok (Expression.unaryOperation e UnaryOperator.plus, ts2)
    | Token.keyword Keyword.not =>
      match parseExpression fuel 7 ts.tail with
      | Except.error e => Except.error e
      | Except.ok (e, ts2) =>
        Except.ok (Expression.unaryOperation e UnaryOperator.not, ts2)
    | t => Except.error (PError.msg ("Unexpected token: " ++ reprToken t))

/-- `Parser::parse_expression`: precedence climbing with a minimum binding
power; parse a primary, then fold binary operators in the climbing loop. -/
def parseExpression : Nat → Nat → List Token → PResult Expression
  | 0, _, _ => Except.error PError.noFuel
  | fuel + 1, prec, ts =>
    match parsePrimary fuel ts with
    | Except.error e => Except.error e
    | Except.ok (left, ts1) => parseExpLoop fuel prec left ts1

/-- The climbing `while` loop of `parse_expression`: while the current token
is a binary operator binding strictly tighter than `prec`, consume it, parse
the right operand at the operator's own binding power and fold a
left-associated node. -/
def parseExpLoop : Nat → Nat → Expression → List Token → PResult Expression
  | 0, _, _, _ => Except.error PError.noFuel
  | fuel + 1, prec, left, ts =>
    match getBinaryOperator (currentToken ts) with
    | none => Except.ok (left, ts)
    | some op =>
      if getPrecedence op ≤ prec then Except.ok (left, ts)
      else
        match parseExpression fuel (getPrecedence op) ts.tail with
        | Except.error e => Except.error e
        | Except.ok (right, ts1) =>
          parseExpLoop fuel prec (Expression.binaryOperation left op right) ts1

end

/-- `Parser::parse_select_columns`: comma-separated non-empty list of
projection expressions. -/
def parseSelectColumns : Nat → List Token → PResult (List Expression)
  | 0, _ => Except.error PError.noFuel
  | fuel + 1, ts =>
    match parseExpression fuel 0 ts with
    | Except.error e => Except.error e
    | Except.ok (e, ts1) =>
      if currentToken ts1 = Token.comma then
        match parseSelectColumns fuel ts1.tail with
        | Except.error e2 => Except.error e2
        | Except.ok (es, ts2) => Except.ok (e :: es, ts2)
      else Except.ok ([e], ts1)

mutual

/-- The tail of one `parse_orderby` iteration, after the optional ASC/DESC
tag has produced the key: either consume a comma and continue the loop, or
stop with the keys collected so far (in the Rust code this is the fall-
through after the tag `match`, shared by all three tag branches). -/
def parseOrderbyCont : Nat → Expression → List Token → PResult (List Expression)
  | 0, _, _ => Except.error PError.noFuel
  | fuel + 1, key, ts =>
    if currentToken ts = Token.comma then
      match parseOrderby fuel ts.tail with
      | Except.error e => Except.error e
      | Except.ok (es, ts1) => Except.ok (key :: es, ts1)
    else Except.ok ([key], ts)

/-- `Parser::parse_orderby`: comma-separated order keys, each optionally
tagged `ASC`/`DESC` via a unary wrapper. -/
def parseOrderby : Nat → List Token → PResult (List Expression)
  | 0, _ => Except.error PError.noFuel
  | fuel + 1, ts =>
    match parseExpression fuel 0 ts with
    | Except.error e => Except.error e
    | Except.ok (e0, ts1) =>
      match currentToken ts1 with
      | Token.keyword Keyword.asc =>
        parseOrderbyCont fuel (Expression.unaryOperation e0 UnaryOperator.asc)
          ts1.tail
      | Token.keyword Keyword.desc =>
        parseOrderbyCont fuel (Expression.unaryOperation e0 UnaryOperator.desc)
          ts1.tail
      | _ => parseOrderbyCont fuel e0 ts1

end

/-- `Parser::parse_column_type`: `INT`, `BOOL`, or `VARCHAR(<number>)`. -/
def parseColumnType (ts : List Token) : PResult DBType :=
  match currentToken ts with
  | Token.keyword Keyword.int => Except.ok (DBType.int, ts.tail)
  | Token.keyword Keyword.bool => Except.ok (DBType.bool, ts.tail)
  | Token.keyword Keyword.varchar =>
    match expectToken Token.leftParentheses ts.tail with
    | Except.error e => Except.error e
    | Except.ok (_, ts1) =>
      match currentToken ts1 with
      | Token.number size =>
        match expectToken Token.rightParentheses ts1.tail with
        | Except.error e => Except.error e
        | Except.ok (_, ts2) => Except.ok (DBType.varchar size, ts2)
      | _ => Except.error (PError.msg "Expected number for VARCHAR size")
  | _ => Except.error (PError.msg "Expected a valid data type")

/-- `Parser::parse_column_constraints`: greedily parse `PRIMARY KEY`,
`NOT NULL` and `CHECK (<expr>)` constraints, stopping at the first token
matching none of the three. -/
def parseColumnConstraints : Nat → List Token → PResult (List Constraint)
  | 0, _ => Except.error PError.noFuel
  | fuel + 1, ts =>
    match currentToken ts with
    | Token.keyword Keyword.primary =>
      if currentToken ts.tail = Token.keyword Keyword.key then
        match parseColumnConstraints fuel ts.tail.tail with
        | Except.error e => Except.error e
        | Except.ok (cs, ts2) => Except.ok (Constraint.primaryKey :: cs, ts2)
      else Except.error (PError.msg "Expected KEY after PRIMARY")
    | Token.keyword Keyword.not =>
      if currentToken ts.tail = Token.keyword Keyword.null then
        match parseColumnConstraints fuel ts.tail.tail with
        | Except.error e => Except.error e
        | Except.ok (cs, ts2) => Except.ok (Constraint.notNull :: cs, ts2)
      else Except.error (PError.msg "Expected NULL after NOT")
    | Token.keyword Keyword.check =>
      match expectToken Token.leftParentheses ts.tail with
      | Except.error e => Except.error e
      | Except.ok (_, ts1) =>
        match parseExpression fuel 0 ts1 with
        | Except.error e => Except.error e
        | Except.ok (e, ts2) =>
          match expectToken Token.rightParentheses ts2 with
          | Except.error e2 => Except.error e2
          | Except.ok (_, ts3) =>
            match parseColumnConstraints fuel ts3 with
            | Except.error e2 => Except.error e2
            | Except.ok (cs, ts4) => Except.ok (Constraint.check e :: cs, ts4)
    | _ => Except.ok ([], ts)

/-- `Parser::parse_column_definition`: column name, type, constraints. -/
def parseColumnDefinition : Nat → List Token → PResult TableColumn
  | 0, _ => Except.error PError.noFuel
  | fuel + 1, ts =>
    match currentToken ts with
    | Token.identifier name =>
      match parseColumnType ts.tail with
      | Except.error e => Except.error e
      | Except.ok (ty, ts1) =>
        match parseColumnConstraints fuel ts1 with
        | Except.error e => Except.error e
        | Except.ok (cs, ts2) =>
          Except.ok (TableColumn.mk name ty cs, ts2)
    | _ => Except.error (PError.msg "Expected column name")

/-- The column-list loop of `Parser::parse_create_table`: column
definitions separated by commas, closed by a right parenthesis. -/
def parseCreateTableColumns : Nat → List Token → PResult (List TableColumn)
  | 0, _ => Except.error PError.noFuel
  | fuel + 1, ts =>
    match parseColumnDefinition fuel ts with
    | Except.error e => Except.error e
    | Except.ok (col, ts1) =>
      match currentToken ts1 with
      | Token.comma =>
        match parseCreateTableColumns fuel ts1.tail with
        | Except.error e => Except.error e
        | Except.ok (cols, ts2) => Except.ok (col :: cols, ts2)
      | Token.rightParentheses => Except.ok ([col], ts1.tail)
      | _ => Except.error (PError.msg "Expected \x27,\x27 or \x27)\x27")

/-- `Parser::parse_create_table`: entered with `TABLE` as the current token
(which it skips), then table name, parenthesised column list, and the
terminating semicolon. -/
def parseCreateTable : Nat → List Token → PResult Statement
  | 0, _ => Except.error PError.noFuel
  | fuel + 1, ts =>
    match currentToken ts.tail with
    | Token.identifier name =>
      match expectToken Token.leftParentheses ts.tail.tail with
      | Except.error e => Except.error e
      | Except.ok (_, ts1) =>
        match parseCreateTableColumns fuel ts1 with
        | Except.error e => Except.error e
        | Except.ok (cols, ts2) =>
          match expectToken Token.semicolon ts2 with
          | Except.error e => Except.error e
          | Except.ok (_, ts3) => Except.ok (Statement.createTable name cols, ts3)
    | _ => Except.error (PError.msg "Expected table name")

/-- The tail of `Parser::parse_select` after the optional `WHERE` clause:
the optional `ORDER BY` keys and the terminating semicolon. -/
def parseSelectFinish : Nat → List Expression → List Char → Option Expression →
    List Token → PResult Statement
  | 0, _, _, _, _ => Except.error PError.noFuel
  | fuel + 1, columns, fromName, whereOpt, ts =>
    if currentToken ts = Token.keyword Keyword.order then
      if currentToken ts.tail = Token.keyword Keyword.by' then
        match parseOrderby fuel ts.tail.tail with
        | Except.error e => Except.error e
        | Except.ok (ob, ts1) =>
          match expectToken Token.semicolon ts1 with
          | Except.error e => Except.error e
          | Except.ok (_, ts2) =>
            Except.ok (Statement.select columns fromName whereOpt ob, ts2)
      else Except.error (PError.msg "Expected BY after ORDER")
    else
      match expectToken Token.semicolon ts with
      | Except.error e => Except.error e
      | Except.ok (_, ts2) =>
        Except.ok (Statement.select columns fromName whereOpt [], ts2)

/-- `Parser::parse_select`: projection list, `FROM` and table name, optional
`WHERE` predicate, then `parseSelectFinish`. -/
def parseSelect : Nat → List Token → PResult Statement
  | 0, _ => Except.error PError.noFuel
  | fuel + 1, ts =>
    match parseSelectColumns fuel ts with
    | Except.error e => Except.error e
    | Except.ok (columns, ts1) =>
      if currentToken ts1 = Token.keyword Keyword.from' then
        match currentToken ts1.tail with
        | Token.identifier fromName =>
          if currentToken ts1.tail.tail = Token.keyword Keyword.where' then
            match parseExpression fuel 0 ts1.tail.tail.tail with
            | Except.error e => Except.error e
            | Except.ok (w, ts2) =>
              parseSelectFinish fuel columns fromName (some w) ts2
          else parseSelectFinish fuel columns fromName none ts1.tail.tail
        | _ => Except.error (PError.msg "Expected table name")
      else Except.error (PError.msg "Expected FROM clause")

/-- `Parser::parse_statement` over the token stream: dispatch on the leading
token; `CREATE` additionally requires `TABLE` as the following token. -/
def parseStatementTokens : Nat → List Token → PResult Statement
  | 0, _ => Except.error PError.noFuel
  | fuel + 1, ts =>
    match currentToken ts with
    | Token.keyword Keyword.select => parseSelect fuel ts.tail
    | Token.keyword Keyword.create =>
      if currentToken ts.tail = Token.keyword Keyword.table then
        parseCreateTable fuel ts.tail
      else Except.error (PError.msg "Expected TABLE after CREATE")
    | _ => Except.error (PError.msg "Expected SELECT or CREATE")

/-- The public entry point: tokenize, parse one statement with a fuel budget
linear in the input length (proved sufficient below), and drop the
uninspected remaining tokens. -/
def parseStatement (cs : List Char) : Except PError Statement :=
  match parseStatementTokens (4 * cs.length + 12) (tokenize cs) with
  | Except.error e => Except.error e
  | Except.ok (stmt, _) => Except.ok stmt

/-- String-level wrapper of `parseStatement`. -/
def parseStatementStr (s : String) : Except PError Statement :=
  parseStatement s.toList

/-- Expression-level entry point mirroring `parseStatement`, used to state
the expression-grammar properties of the public `parse_expression`. -/
def runExpression (s : String) : PResult Expression :=
  parseExpression (4 * s.toList.length + 12) 0 (tokenize s.toList)

end SqlParser

deriving instance DecidableEq for Except

namespace SqlProofs

open SqlAst SqlTokenizer SqlParser

/-- Whitespace-only input tokenizes to the empty stream. -/
theorem tokenizeAux_ws (fuel : Nat) (cs : List Char)
    (h : ∀ c ∈ cs, rustIsWhitespace c = true) : tokenizeAux fuel cs = [] := by
  cases fuel with
  | zero => rfl
  | succ fuel =>
    have hskip : skipWhitespace cs = [] := by
      exact List.dropWhile_eq_nil_iff.mpr h
    simp [tokenizeAux, nextToken, hskip]

/-- On an empty token stream the statement dispatch reads the substituted
`Eof` and fails with the fixed message. -/
theorem parseStatementTokens_nil (fuel : Nat) :
    parseStatementTokens (fuel + 1) [] =
      Except.error (PError.msg "Expected SELECT or CREATE") := rfl

/-- `parseStatement` on whitespace-only input. -/
theorem parseStatement_ws (cs : List Char)
    (h : ∀ c ∈ cs, rustIsWhitespace c = true) :
    parseStatement cs = Except.error (PError.msg "Expected SELECT or CREATE") := by
  have htok : tokenize cs = [] := tokenizeAux_ws _ _ h
  unfold parseStatement
  rw [htok]
  rfl

/-- C10: on empty or whitespace-only input `parse_statement` returns the
error "Expected SELECT or CREATE" and never panics (the embedding is a total
function): the exhausted token stream presents the explicit `Eof` token to
the leading-token dispatch, which is a total comparison. -/
theorem claim_C10_empty_input :
    currentToken [] = Token.eof ∧
    parseStatement [] = Except.error (PError.msg "Expected SELECT or CREATE") ∧
    ∀ cs : List Char, (∀ c ∈ cs, rustIsWhitespace c = true) →
      parseStatement cs = Except.error (PError.msg "Expected SELECT or CREATE") := by
  refine ⟨rfl, parseStatement_ws [] (by simp), fun cs h => parseStatement_ws cs h⟩

/-- Witness for C10, at the three-space whitespace-only input. -/
theorem claim_C10_empty_input_witness :
    parseStatement "   ".toList =
      Except.error (PError.msg "Expected SELECT or CREATE") :=
  claim_C10_empty_input.2.2 "   ".toList (by decide)

/-- C2: the binary binding powers are OR=1, AND=2, equality=3, ordering=4,
additive=5, multiplicative=6, and parsing "1 + 2 * 3" as an expression
yields a Plus node whose right operand is the Multiply subtree of 2 and 3. -/
theorem claim_C2_binding_powers :
    getPrecedence BinaryOperator.or = 1 ∧
    getPrecedence BinaryOperator.and = 2 ∧
    getPrecedence BinaryOperator.equal = 3 ∧
    getPrecedence BinaryOperator.notEqual = 3 ∧
    getPrecedence BinaryOperator.greaterThan = 4 ∧
    getPrecedence BinaryOperator.greaterThanOrEqual = 4 ∧
    getPrecedence BinaryOperator.lessThan = 4 ∧
    getPrecedence BinaryOperator.lessThanOrEqual = 4 ∧
    getPrecedence BinaryOperator.plus = 5 ∧
    getPrecedence BinaryOperator.minus = 5 ∧
    getPrecedence BinaryOperator.multiply = 6 ∧
    getPrecedence BinaryOperator.divide = 6 ∧
    runExpression "1 + 2 * 3" =
      Except.ok (Expression.binaryOperation (Expression.number 1)
        BinaryOperator.plus
        (Expression.binaryOperation (Expression.number 2)
          BinaryOperator.multiply (Expression.number 3)), []) := by
  decide

/-- C3: same-precedence binary operators associate to the left: "1 - 2 - 3"
parses to the tree (1 - 2) - 3. -/
theorem claim_C3_left_associativity :
    runExpression "1 - 2 - 3" =
      Except.ok (Expression.binaryOperation
        (Expression.binaryOperation (Expression.number 1)
          BinaryOperator.minus (Expression.number 2))
        BinaryOperator.minus (Expression.number 3), []) := by
  decide

/-- C4: prefix unary operators bind at power 7, strictly tighter than every
binary operator, so "-1 + 2" parses as Plus(Unary(Minus, 1), 2) and not as a
negation of the whole sum. -/
theorem claim_C4_unary_binds_tighter :
    getPrecedence BinaryOperator.or < 7 ∧
    getPrecedence BinaryOperator.and < 7 ∧
    getPrecedence BinaryOperator.equal < 7 ∧
    getPrecedence BinaryOperator.notEqual < 7 ∧
    getPrecedence BinaryOperator.greaterThan < 7 ∧
    getPrecedence BinaryOperator.greaterThanOrEqual < 7 ∧
    getPrecedence BinaryOperator.lessThan < 7 ∧
    getPrecedence BinaryOperator.lessThanOrEqual < 7 ∧
    getPrecedence BinaryOperator.plus < 7 ∧
    getPrecedence BinaryOperator.minus < 7 ∧
    getPrecedence BinaryOperator.multiply < 7 ∧
    getPrecedence BinaryOperator.divide < 7 ∧
    runExpression "-1 + 2" =
      Except.ok (Expression.binaryOperation
        (Expression.unaryOperation (Expression.number 1) UnaryOperator.minus)
        BinaryOperator.plus (Expression.number 2), []) := by
  decide

/-- C5 counterexample: the claim asserts a non-positive VARCHAR size such as
0 makes the parse fail, but `parse_column_type` accepts `VARCHAR(0)`. -/
theorem claim_C5_counterexample_zero_size :
    parseColumnType [Token.keyword Keyword.varchar, Token.leftParentheses,
      Token.number 0, Token.rightParentheses] =
      Except.ok (DBType.varchar 0, []) := by
  decide

/-- C5 amended: in a CREATE TABLE column definition a VARCHAR column type is
accepted exactly when the VARCHAR keyword is followed by a parenthesized
numeric literal size (any unsigned 64-bit value, including 0); a missing
parenthesis or a non-numeric size fails with an error. -/
theorem claim_C5_amended_varchar :
    (∀ (n : Nat) (rest : List Token),
        parseColumnType (Token.keyword Keyword.varchar :: Token.leftParentheses ::
          Token.number n :: Token.rightParentheses :: rest) =
          Except.ok (DBType.varchar n, rest)) ∧
    (∀ (ts rest : List Token) (d : DBType),
        parseColumnType (Token.keyword Keyword.varchar :: ts) = Except.ok (d, rest) →
        ∃ n : Nat, ts = Token.leftParentheses :: Token.number n ::
          Token.rightParentheses :: rest ∧ d = DBType.varchar n) := by
  constructor
  · intro n rest
    rfl
  · intro ts rest d h
    cases ts with
    | nil => simp [parseColumnType, expectToken, currentToken] at h
    | cons t ts' =>
      cases t <;> simp [parseColumnType, expectToken, currentToken] at h
      cases ts' with
      | nil => simp at h
      | cons t2 ts'' =>
        cases t2 <;> simp at h
        rename_i n
        cases ts'' with
        | nil => simp at h
        | cons t3 ts3 =>
          cases t3 <;> simp at h
          obtain ⟨hd, hr⟩ := h
          exact ⟨n, by rw [hr], hd.symm⟩

/-- Witness for C5 amended: the characterization applied to the concrete
accepted input VARCHAR(7). -/
theorem claim_C5_amended_varchar_witness :
    ∃ n : Nat, [Token.leftParentheses, Token.number 7, Token.rightParentheses] =
      Token.leftParentheses :: Token.number n :: Token.rightParentheses ::
        ([] : List Token) ∧ DBType.varchar 7 = DBType.varchar n :=
  claim_C5_amended_varchar.2 [Token.leftParentheses, Token.number 7,
    Token.rightParentheses] [] (DBType.varchar 7) (by decide)

/-- C8: scanning a maximal digit run parses it as an unsigned 64-bit
integer, emitting `Number(n)` when the value fits and an `Invalid` token
carrying the first digit on overflow, never a wrapped-around number;
instances at `u64::MAX` and `u64::MAX + 1`. -/
theorem claim_C8_number_overflow :
    (∀ (first : Char) (cs : List Char),
        (digitsToNat (first :: cs.takeWhile isAsciiDigit) ≤ u64Max →
          readNumber first cs =
            (Token.number (digitsToNat (first :: cs.takeWhile isAsciiDigit)),
              cs.dropWhile isAsciiDigit)) ∧
        (u64Max < digitsToNat (first :: cs.takeWhile isAsciiDigit) →
          readNumber first cs = (Token.invalid first, cs.dropWhile isAsciiDigit))) ∧
    tokenize "18446744073709551615".toList = [Token.number 18446744073709551615] ∧
    tokenize "18446744073709551616".toList = [Token.invalid '1'] := by
  refine ⟨fun first cs => ⟨fun h => ?_, fun h => ?_⟩, by decide, by decide⟩
  · simp only [readNumber]
    rw [if_pos h]
  · simp only [readNumber]
    rw [if_neg (by omega)]

/-- Witness for C8, at the fitting run "42" and an overflowing run of
twenty nines. -/
theorem claim_C8_number_overflow_witness :
    readNumber '4' "2".toList =
      (Token.number (digitsToNat ('4' :: "2".toList.takeWhile isAsciiDigit)),
        "2".toList.dropWhile isAsciiDigit) ∧
    readNumber '9' "9999999999999999999".toList =
      (Token.invalid '9', "9999999999999999999".toList.dropWhile isAsciiDigit) :=
  ⟨(claim_C8_number_overflow.1 '4' "2".toList).1 (by decide),
    (claim_C8_number_overflow.1 '9' "9999999999999999999".toList).2 (by decide)⟩

/-- C7: keyword recognition is case-insensitive and reserved words never
become identifiers: a scanned word is uppercased and looked up in the fixed
keyword table, yielding the matching `Keyword` token on a hit and an
`Identifier` carrying the original text otherwise (so an emitted identifier
never uppercases into the table); "select", "Select" and "SELECT" all yield
`Keyword(Select)`. -/
theorem claim_C7_keywords :
    (∀ (c : Char) (cs : List Char), isWordStart c = true →
        (∃ k : Keyword,
            (readIdentifierOrKeyword c cs).1 = Token.keyword k ∧
            lookupKeyword ((c :: cs.takeWhile isWordContinue).map toUpperChar) =
              some k) ∨
          ((readIdentifierOrKeyword c cs).1 =
              Token.identifier (c :: cs.takeWhile isWordContinue) ∧
            lookupKeyword ((c :: cs.takeWhile isWordContinue).map toUpperChar) =
              none)) ∧
    (∀ (c : Char) (cs w : List Char) (rest : List Char),
        readIdentifierOrKeyword c cs = (Token.identifier w, rest) →
        lookupKeyword (w.map toUpperChar) = none) ∧
    tokenize "select".toList = [Token.keyword Keyword.select] ∧
    tokenize "Select".toList = [Token.keyword Keyword.select] ∧
    tokenize "SELECT".toList = [Token.keyword Keyword.select] := by
  refine ⟨fun c cs _ => ?_, fun c cs w rest h => ?_, by decide, by decide, by decide⟩
  · simp only [List.map_cons]
    cases hk : lookupKeyword (toUpperChar c ::
        (cs.takeWhile isWordContinue).map toUpperChar) with
    | some k =>
      exact Or.inl ⟨k, by simp [readIdentifierOrKeyword, hk], rfl⟩
    | none =>
      exact Or.inr ⟨by simp [readIdentifierOrKeyword, hk], rfl⟩
  · simp only [readIdentifierOrKeyword] at h
    cases hk : lookupKeyword (toUpperChar c ::
        (cs.takeWhile isWordContinue).map toUpperChar) with
    | some k =>
      rw [List.map_cons, hk] at h
      simp at h
    | none =>
      rw [List.map_cons, hk] at h
      simp at h
      rw [← h.1, List.map_cons]
      exact hk

/-- Witness for C7, at the lowercase word "select". -/
theorem claim_C7_keywords_witness :
    (∃ k : Keyword,
        (readIdentifierOrKeyword 's' "elect".toList).1 = Token.keyword k ∧
        lookupKeyword (('s' :: "elect".toList.takeWhile isWordContinue).map
          toUpperChar) = some k) ∨
      ((readIdentifierOrKeyword 's' "elect".toList).1 =
          Token.identifier ('s' :: "elect".toList.takeWhile isWordContinue) ∧
        lookupKeyword (('s' :: "elect".toList.takeWhile isWordContinue).map
          toUpperChar) = none) :=
  claim_C7_keywords.1 's' "elect".toList (by decide)

/-- A successful run of a parsing function splits its input into a consumed
prefix `c` and the returned remainder `r`, where `c` has at least `k` tokens,
contains no `Invalid` token, and the run replays identically (with any fuel
at least the original and any remainder with the same lookahead head). -/
def Replay {α : Type} (run : Nat → List Token → PResult α) (fuel k : Nat)
    (ts : List Token) (a : α) (r : List Token) : Prop :=
  ∃ c : List Token,
    ts = c ++ r ∧ k ≤ c.length ∧ (∀ ch : Char, Token.invalid ch ∉ c) ∧
    ∀ (fuel2 : Nat) (r2 : List Token), fuel ≤ fuel2 →
      r2.headD Token.eof = r.headD Token.eof →
      run fuel2 (c ++ r2) = Except.ok (a, r2)

/-- Replay property of the statement-level functions, whose last consumed
token is the terminating semicolon and which never inspect the remainder:
the replay needs no lookahead condition. -/
def ReplayTop {α : Type} (run : Nat → List Token → PResult α) (fuel : Nat)
    (ts : List Token) (a : α) (r : List Token) : Prop :=
  ∃ c0 : List Token,
    ts = c0 ++ Token.semicolon :: r ∧ (∀ ch : Char, Token.invalid ch ∉ c0) ∧
    ∀ (fuel2 : Nat) (r2 : List Token), fuel ≤ fuel2 →
      run fuel2 (c0 ++ Token.semicolon :: r2) = Except.ok (a, r2)

/-- All replay statements at a given fuel, one conjunct per parsing
function (`parseCreateTable` additionally skips one unexamined token). -/
def ReplayAll (fuel : Nat) : Prop :=
  (∀ ts a r, parsePrimary fuel ts = Except.ok (a, r) →
      Replay parsePrimary fuel 1 ts a r) ∧
  (∀ prec ts a r, parseExpression fuel prec ts = Except.ok (a, r) →
      Replay (fun f => parseExpression f prec) fuel 1 ts a r) ∧
  (∀ prec left ts a r, parseExpLoop fuel prec left ts = Except.ok (a, r) →
      Replay (fun f => parseExpLoop f prec left) fuel 0 ts a r) ∧
  (∀ ts a r, parseSelectColumns fuel ts = Except.ok (a, r) →
      Replay parseSelectColumns fuel 1 ts a r) ∧
  (∀ ts a r, parseOrderby fuel ts = Except.ok (a, r) →
      Replay parseOrderby fuel 1 ts a r) ∧
  (∀ key ts a r, parseOrderbyCont fuel key ts = Except.ok (a, r) →
      Replay (fun f => parseOrderbyCont f key) fuel 0 ts a r) ∧
  (∀ ts a r, parseColumnConstraints fuel ts = Except.ok (a, r) →
      Replay parseColumnConstraints fuel 0 ts a r) ∧
  (∀ ts a r, parseColumnDefinition fuel ts = Except.ok (a, r) →
      Replay parseColumnDefinition fuel 2 ts a r) ∧
  (∀ ts a r, parseCreateTableColumns fuel ts = Except.ok (a, r) →
      Replay parseCreateTableColumns fuel 3 ts a r) ∧
  (∀ ts a r, parseCreateTable fuel ts = Except.ok (a, r) →
      ∃ (t0 : Token) (c0 : List Token),
        ts = t0 :: (c0 ++ Token.semicolon :: r) ∧
        (∀ ch : Char, Token.invalid ch ∉ c0) ∧
        ∀ (fuel2 : Nat) (r2 : List Token), fuel ≤ fuel2 →
          parseCreateTable fuel2 (t0 :: (c0 ++ Token.semicolon :: r2)) =
            Except.ok (a, r2)) ∧
  (∀ cols name w ts a r, parseSelectFinish fuel cols name w ts = Except.ok (a, r) →
      ReplayTop (fun f => parseSelectFinish f cols name w) fuel ts a r) ∧
  (∀ ts a r, parseSelect fuel ts = Except.ok (a, r) →
      ReplayTop parseSelect fuel ts a r) ∧
  (∀ ts a r, parseStatementTokens fuel ts = Except.ok (a, r) →
      ReplayTop parseStatementTokens fuel ts a r)

/-- A nonempty-headed remainder keeps its lookahead under appends. -/
theorem headD_append_congr {c r r2 : List Token}
    (h : r2.headD Token.eof = r.headD Token.eof) :
    (c ++ r2).headD Token.eof = (c ++ r).headD Token.eof := by
  cases c with
  | nil => exact h
  | cons t c' => rfl

/-- A current token other than `Eof` is a real head of the stream. -/
theorem currentToken_shape {ts : List Token} {tok : Token}
    (h : currentToken ts = tok) (hne : tok ≠ Token.eof) : ts = tok :: ts.tail := by
  cases ts with
  | nil =>
    simp [currentToken] at h
    exact absurd h.symm hne
  | cons t ts' => rw [← h]; rfl

/-- The lookahead of a cons stream. -/
theorem currentToken_cons (t : Token) (ts : List Token) :
    currentToken (t :: ts) = t := rfl

/-- Successful `expectToken` on a non-`Eof` expected token exposes it as the
head of the stream. -/
theorem expectToken_shape {tok : Token} {ts r : List Token}
    (hne : tok ≠ Token.eof) (h : expectToken tok ts = Except.ok ((), r)) :
    ts = tok :: r := by
  unfold expectToken at h
  split at h
  · rename_i hcur
    have := currentToken_shape hcur hne
    simp at h
    rw [← h]
    exact this
  · simp at h

/-- `expectToken` consumes a matching head. -/
theorem expectToken_replay (tok : Token) (r2 : List Token) :
    expectToken tok (tok :: r2) = Except.ok ((), r2) := by
  simp [expectToken, currentToken]

/-- Replay property of the fuel-free `parseColumnType`. -/
theorem parseColumnType_replay {ts r : List Token} {d : DBType}
    (h : parseColumnType ts = Except.ok (d, r)) :
    ∃ c : List Token, ts = c ++ r ∧ 1 ≤ c.length ∧
      (∀ ch : Char, Token.invalid ch ∉ c) ∧
      ∀ r2 : List Token, parseColumnType (c ++ r2) = Except.ok (d, r2) := by
  unfold parseColumnType at h
  split at h
  · -- INT
    rename_i hcur
    have hts := currentToken_shape hcur (by decide)
    simp at h
    obtain ⟨hd, hr⟩ := h
    refine ⟨[Token.keyword Keyword.int], ?_, by simp, fun ch => by simp, fun r2 => ?_⟩
    · rw [hts, hr]; rfl
    · rw [← hd]; rfl
  · -- BOOL
    rename_i hcur
    have hts := currentToken_shape hcur (by decide)
    simp at h
    obtain ⟨hd, hr⟩ := h
    refine ⟨[Token.keyword Keyword.bool], ?_, by simp, fun ch => by simp, fun r2 => ?_⟩
    · rw [hts, hr]; rfl
    · rw [← hd]; rfl
  · -- VARCHAR
    rename_i hcur
    have hts := currentToken_shape hcur (by decide)
    split at h
    · simp at h
    · rename_i u ts1 hexp
      obtain ⟨hu⟩ := u
      have h1 : ts.tail = Token.leftParentheses :: ts1 :=
        expectToken_shape (by decide) hexp
      split at h
      · rename_i n hn
        have h2 : ts1 = Token.number n :: ts1.tail :=
          currentToken_shape hn (by simp)
        split at h
        · simp at h
        · rename_i u2 ts2 hexp2
          obtain ⟨hu2⟩ := u2
          have h3 : ts1.tail = Token.rightParentheses :: ts2 :=
            expectToken_shape (by decide) hexp2
          simp at h
          obtain ⟨hd, hr⟩ := h
          refine ⟨[Token.keyword Keyword.varchar, Token.leftParentheses,
            Token.number n, Token.rightParentheses], ?_, by simp,
            fun ch => by simp, fun r2 => ?_⟩
          · rw [hts, h1, h2, h3, hr]; rfl
          · rw [← hd]; rfl
      · simp at h
  · simp at h

/-- Destructuring of a fuel bound. -/
theorem succ_le_dest {a b : Nat} (h : a + 1 ≤ b) : ∃ b', b = b' + 1 ∧ a ≤ b' :=
  ⟨b - 1, by omega, by omega⟩

theorem replayAll (fuel : Nat) : ReplayAll fuel := by
  induction fuel with
  | zero =>
    refine ⟨?_, ?_, ?_, ?_, ?_, ?_, ?_, ?_, ?_, ?_, ?_, ?_, ?_⟩ <;> intros <;>
      rename_i h <;>
      simp [parsePrimary, parseExpression, parseExpLoop, parseSelectColumns,
        parseOrderby, parseOrderbyCont, parseColumnConstraints,
        parseColumnDefinition, parseCreateTableColumns, parseCreateTable,
        parseSelectFinish, parseSelect, parseStatementTokens] at h
  | succ fuel ih =>
    obtain ⟨ihP, ihE, ihL, ihSC, ihOB, ihOBC, ihCC, ihCD, ihCTC, ihCT, ihSF,
      ihSEL, ihST⟩ := ih
    refine ⟨?_, ?_, ?_, ?_, ?_, ?_, ?_, ?_, ?_, ?_, ?_, ?_, ?_⟩
    · -- parsePrimary
      intro ts a r h
      simp only [parsePrimary] at h
      split at h
      · -- number
        rename_i n heq
        simp at h
        obtain ⟨ha, hr⟩ := h
        refine ⟨[Token.number n], ?_, by simp, fun ch => by simp, ?_⟩
        · rw [← hr]
          exact currentToken_shape heq (by simp)
        · intro fuel2 r2 hf2 _
          obtain ⟨f2, rfl, _⟩ := succ_le_dest hf2
          rw [← ha]
          rfl
      · -- string
        rename_i s heq
        simp at h
        obtain ⟨ha, hr⟩ := h
        refine ⟨[Token.string s], ?_, by simp, fun ch => by simp, ?_⟩
        · rw [← hr]
          exact currentToken_shape heq (by simp)
        · intro fuel2 r2 hf2 _
          obtain ⟨f2, rfl, _⟩ := succ_le_dest hf2
          rw [← ha]
          rfl
      · -- identifier
        rename_i s heq
        simp at h
        obtain ⟨ha, hr⟩ := h
        refine ⟨[Token.identifier s], ?_, by simp, fun ch => by simp, ?_⟩
        · rw [← hr]
          exact currentToken_shape heq (by simp)
        · intro fuel2 r2 hf2 _
          obtain ⟨f2, rfl, _⟩ := succ_le_dest hf2
          rw [← ha]
          rfl
      · -- TRUE
        rename_i heq
        simp at h
        obtain ⟨ha, hr⟩ := h
        refine ⟨[Token.keyword Keyword.true], ?_, by simp, fun ch => by simp, ?_⟩
        · rw [← hr]
          exact currentToken_shape heq (by simp)
        · intro fuel2 r2 hf2 _
          obtain ⟨f2, rfl, _⟩ := succ_le_dest hf2
          rw [← ha]
          rfl
      · -- FALSE
        rename_i heq
        simp at h
        obtain ⟨ha, hr⟩ := h
        refine ⟨[Token.keyword Keyword.false], ?_, by simp, fun ch => by simp, ?_⟩
        · rw [← hr]
          exact currentToken_shape heq (by simp)
        · intro fuel2 r2 hf2 _
          obtain ⟨f2, rfl, _⟩ := succ_le_dest hf2
          rw [← ha]
          rfl
      · -- star
        rename_i heq
        simp at h
        obtain ⟨ha, hr⟩ := h
        refine ⟨[Token.star], ?_, by simp, fun ch => by simp, ?_⟩
        · rw [← hr]
          exact currentToken_shape heq (by simp)
        · intro fuel2 r2 hf2 _
          obtain ⟨f2, rfl, _⟩ := succ_le_dest hf2
          rw [← ha]
          rfl
      · -- parenthesized subexpression
        rename_i heq
        split at h
        · simp at h
        · rename_i e ts2 hsub
          split at h
          · rename_i hrp
            simp at h
            obtain ⟨ha, hr⟩ := h
            obtain ⟨c1, h1, hk1, hninv1, hrep1⟩ := ihE 0 ts.tail e ts2 hsub
            have hts := currentToken_shape heq (by simp)
            have hts2 : ts2 = Token.rightParentheses :: r := by
              rw [← hr]
              exact currentToken_shape hrp (by simp)
            refine ⟨Token.leftParentheses :: (c1 ++ [Token.rightParentheses]),
              ?_, by simp, fun ch => by simp [hninv1 ch], ?_⟩
            · rw [hts, h1, hts2]
              simp
            · intro fuel2 r2 hf2 _
              obtain ⟨f2, rfl, hle⟩ := succ_le_dest hf2
              have e1 : parseExpression f2 0 (c1 ++ (Token.rightParentheses :: r2)) =
                  Except.ok (e, Token.rightParentheses :: r2) := by
                refine hrep1 f2 (Token.rightParentheses :: r2) hle ?_
                rw [hts2]
                rfl
              have hin : (Token.leftParentheses :: (c1 ++ [Token.rightParentheses])) ++ r2 =
                  Token.leftParentheses :: (c1 ++ (Token.rightParentheses :: r2)) := by
                simp
              rw [hin]
              simp only [parsePrimary, currentToken, List.headD_cons, List.tail_cons]
              rw [e1]
              simp [currentToken, ha]
          · simp at h
      · -- unary minus
        rename_i heq
        split at h
        · simp at h
        · rename_i e ts2 hsub
          simp at h
          obtain ⟨ha, hr⟩ := h
          obtain ⟨c1, h1, hk1, hninv1, hrep1⟩ := ihE 7 ts.tail e ts2 hsub
          have hts := currentToken_shape heq (by simp)
          refine ⟨Token.minus :: c1, ?_, by simp, fun ch => by simp [hninv1 ch], ?_⟩
          · rw [hts, h1, hr]
            rfl
          · intro fuel2 r2 hf2 hh
            obtain ⟨f2, rfl, hle⟩ := succ_le_dest hf2
            have e1 : parseExpression f2 7 (c1 ++ r2) = Except.ok (e, r2) := by
              refine hrep1 f2 r2 hle ?_
              rw [hh, hr]
            show parsePrimary (f2 + 1) (Token.minus :: (c1 ++ r2)) = _
            simp only [parsePrimary, currentToken, List.headD_cons, List.tail_cons]
            rw [e1]
            simp [ha]
      · -- unary plus
        rename_i heq
        split at h
        · simp at h
        · rename_i e ts2 hsub
          simp at h
          obtain ⟨ha, hr⟩ := h
          obtain ⟨c1, h1, hk1, hninv1, hrep1⟩ := ihE 7 ts.tail e ts2 hsub
          have hts := currentToken_shape heq (by simp)
          refine ⟨Token.plus :: c1, ?_, by simp, fun ch => by simp [hninv1 ch], ?_⟩
          · rw [hts, h1, hr]
            rfl
          · intro fuel2 r2 hf2 hh
            obtain ⟨f2, rfl, hle⟩ := succ_le_dest hf2
            have e1 : parseExpression f2 7 (c1 ++ r2) = Except.ok (e, r2) := by
              refine hrep1 f2 r2 hle ?_
              rw [hh, hr]
            show parsePrimary (f2 + 1) (Token.plus :: (c1 ++ r2)) = _
            simp only [parsePrimary, currentToken, List.headD_cons, List.tail_cons]
            rw [e1]
            simp [ha]
      · -- unary NOT
        rename_i heq
        split at h
        · simp at h
        · rename_i e ts2 hsub
          simp at h
          obtain ⟨ha, hr⟩ := h
          obtain ⟨c1, h1, hk1, hninv1, hrep1⟩ := ihE 7 ts.tail e ts2 hsub
          have hts := currentToken_shape heq (by simp)
          refine ⟨Token.keyword Keyword.not :: c1, ?_, by simp,
            fun ch => by simp [hninv1 ch], ?_⟩
          · rw [hts, h1, hr]
            rfl
          · intro fuel2 r2 hf2 hh
            obtain ⟨f2, rfl, hle⟩ := succ_le_dest hf2
            have e1 : parseExpression f2 7 (c1 ++ r2) = Except.ok (e, r2) := by
              refine hrep1 f2 r2 hle ?_
              rw [hh, hr]
            show parsePrimary (f2 + 1) (Token.keyword Keyword.not :: (c1 ++ r2)) = _
            simp only [parsePrimary, currentToken, List.headD_cons, List.tail_cons]
            rw [e1]
            simp [ha]
      · -- no atom
        simp at h
    · -- parseExpression
      intro prec ts a r h
      simp only [parseExpression] at h
      split at h
      · simp at h
      · rename_i left ts1 hp
        obtain ⟨c1, h1, hk1, hninv1, hrep1⟩ := ihP ts left ts1 hp
        obtain ⟨c2, h2, hk2, hninv2, hrep2⟩ := ihL prec left ts1 a r h
        refine ⟨c1 ++ c2, ?_, ?_, ?_, ?_⟩
        · rw [h1, h2, List.append_assoc]
        · simp
          omega
        · intro ch
          simp [hninv1 ch, hninv2 ch]
        · intro fuel2 r2 hf2 hh
          obtain ⟨f2, rfl, hle⟩ := succ_le_dest hf2
          have ep : parsePrimary f2 (c1 ++ (c2 ++ r2)) = Except.ok (left, c2 ++ r2) := by
            refine hrep1 f2 (c2 ++ r2) hle ?_
            rw [h2]
            exact headD_append_congr hh
          have el : parseExpLoop f2 prec left (c2 ++ r2) = Except.ok (a, r2) :=
            hrep2 f2 r2 hle hh
          simp only [List.append_assoc, parseExpression]
          rw [ep]
          exact el
    · -- parseExpLoop
      intro prec left ts a r h
      simp only [parseExpLoop] at h
      split at h
      · -- not a binary operator: the loop stops without consuming
        rename_i hop
        simp at h
        obtain ⟨ha, hr⟩ := h
        refine ⟨[], by simp [hr], by simp, by simp, ?_⟩
        intro fuel2 r2 hf2 hh
        obtain ⟨f2, rfl, hle⟩ := succ_le_dest hf2
        have hcur : currentToken r2 = currentToken ts := by
          simp only [currentToken]
          rw [hh, hr]
        show parseExpLoop (f2 + 1) prec left r2 = Except.ok (a, r2)
        simp only [parseExpLoop, hcur, hop, ha]
      · rename_i op hop
        split at h
        · -- precedence too low: the loop stops without consuming
          rename_i hprec
          simp at h
          obtain ⟨ha, hr⟩ := h
          refine ⟨[], by simp [hr], by simp, by simp, ?_⟩
          intro fuel2 r2 hf2 hh
          obtain ⟨f2, rfl, hle⟩ := succ_le_dest hf2
          have hcur : currentToken r2 = currentToken ts := by
            simp only [currentToken]
            rw [hh, hr]
          show parseExpLoop (f2 + 1) prec left r2 = Except.ok (a, r2)
          simp only [parseExpLoop, hcur, hop, if_pos hprec, ha]
        · -- consume the operator, parse the right operand, continue
          rename_i hprec
          split at h
          · simp at h
          · rename_i right ts1 hsub
            cases ts with
            | nil =>
              rw [show currentToken [] = Token.eof from rfl] at hop
              simp [getBinaryOperator] at hop
            | cons t0 tsr =>
              rw [currentToken_cons] at hop
              simp only [List.tail_cons] at hsub
              have hopninv : ∀ ch : Char, t0 ≠ Token.invalid ch := by
                intro ch hcon
                rw [hcon] at hop
                simp [getBinaryOperator] at hop
              obtain ⟨c1, h1, hk1, hninv1, hrep1⟩ :=
                ihE (getPrecedence op) tsr right ts1 hsub
              obtain ⟨c2, h2, hk2, hninv2, hrep2⟩ := ihL prec
                (Expression.binaryOperation left op right) ts1 a r h
              refine ⟨t0 :: (c1 ++ c2), ?_, by simp, ?_, ?_⟩
              · rw [h1, h2]
                simp
              · intro ch
                simp [hninv1 ch, hninv2 ch]
                intro hcon
                exact hopninv ch hcon.symm
              · intro fuel2 r2 hf2 hh
                obtain ⟨f2, rfl, hle⟩ := succ_le_dest hf2
                have er : parseExpression f2 (getPrecedence op) (c1 ++ (c2 ++ r2)) =
                    Except.ok (right, c2 ++ r2) := by
                  refine hrep1 f2 (c2 ++ r2) hle ?_
                  rw [h2]
                  exact headD_append_congr hh
                have el : parseExpLoop f2 prec
                    (Expression.binaryOperation left op right)
                    (c2 ++ r2) = Except.ok (a, r2) := hrep2 f2 r2 hle hh
                show parseExpLoop (f2 + 1) prec left (t0 :: (c1 ++ c2) ++ r2) = _
                simp only [List.cons_append, parseExpLoop, currentToken_cons,
                  List.tail_cons, hop, if_neg hprec, List.append_assoc]
                rw [er]
                exact el
    · -- parseSelectColumns
      intro ts a r h
      simp only [parseSelectColumns] at h
      split at h
      · simp at h
      · rename_i e ts1 hsub
        obtain ⟨c1, h1, hk1, hninv1, hrep1⟩ := ihE 0 ts e ts1 hsub
        split at h
        · -- comma: continue the projection list
          rename_i hcomma
          split at h
          · simp at h
          · rename_i es ts2 hrec
            simp at h
            obtain ⟨ha, hr⟩ := h
            obtain ⟨c2, h2, hk2, hninv2, hrep2⟩ := ihSC ts1.tail es ts2 hrec
            have hts1 : ts1 = Token.comma :: ts1.tail :=
              currentToken_shape hcomma (by simp)
            refine ⟨c1 ++ Token.comma :: c2, ?_, by simp; omega, ?_, ?_⟩
            · conv_lhs => rw [h1, hts1, h2, hr]
              simp
            · intro ch
              simp [hninv1 ch, hninv2 ch]
            · intro fuel2 r2 hf2 hh
              obtain ⟨f2, rfl, hle⟩ := succ_le_dest hf2
              have e1 : parseExpression f2 0 (c1 ++ (Token.comma :: (c2 ++ r2))) =
                  Except.ok (e, Token.comma :: (c2 ++ r2)) := by
                refine hrep1 f2 _ hle ?_
                rw [hts1]
                rfl
              have e2 : parseSelectColumns f2 (c2 ++ r2) = Except.ok (es, r2) :=
                hrep2 f2 r2 hle (by rw [hh, hr])
              rw [show (c1 ++ Token.comma :: c2) ++ r2 =
                c1 ++ (Token.comma :: (c2 ++ r2)) by simp]
              simp only [parseSelectColumns]
              rw [e1]
              simp only [currentToken_cons, List.tail_cons]
              simp [e2, ha]
        · -- no comma: a single projection finishes the list
          rename_i hncomma
          simp at h
          obtain ⟨ha, hr⟩ := h
          refine ⟨c1, by rw [h1, hr], hk1, hninv1, ?_⟩
          intro fuel2 r2 hf2 hh
          obtain ⟨f2, rfl, hle⟩ := succ_le_dest hf2
          have e1 : parseExpression f2 0 (c1 ++ r2) = Except.ok (e, r2) := by
            refine hrep1 f2 r2 hle ?_
            rw [hh, hr]
          have hc : currentToken r2 = currentToken ts1 := by
            simp only [currentToken]
            rw [hh, hr]
          simp only [parseSelectColumns]
          rw [e1]
          simp [hc, hncomma, ha]
    · -- parseOrderby
      intro ts a r h
      simp only [parseOrderby] at h
      split at h
      · simp at h
      · rename_i e0 ts1 hsub
        obtain ⟨c1, h1, hk1, hninv1, hrep1⟩ := ihE 0 ts e0 ts1 hsub
        split at h
        · -- ASC tag
          rename_i hasc
          have hts1 : ts1 = Token.keyword Keyword.asc :: ts1.tail :=
            currentToken_shape hasc (by simp)
          obtain ⟨c2, h2, hk2, hninv2, hrep2⟩ := ihOBC _ ts1.tail a r h
          refine ⟨c1 ++ Token.keyword Keyword.asc :: c2, ?_, by simp; omega, ?_, ?_⟩
          · conv_lhs => rw [h1, hts1, h2]
            simp
          · intro ch
            simp [hninv1 ch, hninv2 ch]
          · intro fuel2 r2 hf2 hh
            obtain ⟨f2, rfl, hle⟩ := succ_le_dest hf2
            have e1 : parseExpression f2 0 (c1 ++ (Token.keyword Keyword.asc ::
                (c2 ++ r2))) = Except.ok (e0,
                Token.keyword Keyword.asc :: (c2 ++ r2)) := by
              refine hrep1 f2 _ hle ?_
              rw [hts1]
              rfl
            have e2 : parseOrderbyCont f2
                (Expression.unaryOperation e0 UnaryOperator.asc) (c2 ++ r2) =
                Except.ok (a, r2) := hrep2 f2 r2 hle hh
            rw [show (c1 ++ Token.keyword Keyword.asc :: c2) ++ r2 =
              c1 ++ (Token.keyword Keyword.asc :: (c2 ++ r2)) by simp]
            simp only [parseOrderby]
            rw [e1]
            simp only [currentToken_cons, List.tail_cons]
            exact e2
        · -- DESC tag
          rename_i hdesc
          have hts1 : ts1 = Token.keyword Keyword.desc :: ts1.tail :=
            currentToken_shape hdesc (by simp)
          obtain ⟨c2, h2, hk2, hninv2, hrep2⟩ := ihOBC _ ts1.tail a r h
          refine ⟨c1 ++ Token.keyword Keyword.desc :: c2, ?_, by simp; omega, ?_, ?_⟩
          · conv_lhs => rw [h1, hts1, h2]
            simp
          · intro ch
            simp [hninv1 ch, hninv2 ch]
          · intro fuel2 r2 hf2 hh
            obtain ⟨f2, rfl, hle⟩ := succ_le_dest hf2
            have e1 : parseExpression f2 0 (c1 ++ (Token.keyword Keyword.desc ::
                (c2 ++ r2))) = Except.ok (e0,
                Token.keyword Keyword.desc :: (c2 ++ r2)) := by
              refine hrep1 f2 _ hle ?_
              rw [hts1]
              rfl
            have e2 : parseOrderbyCont f2
                (Expression.unaryOperation e0 UnaryOperator.desc) (c2 ++ r2) =
                Except.ok (a, r2) := hrep2 f2 r2 hle hh
            rw [show (c1 ++ Token.keyword Keyword.desc :: c2) ++ r2 =
              c1 ++ (Token.keyword Keyword.desc :: (c2 ++ r2)) by simp]
            simp only [parseOrderby]
            rw [e1]
            simp only [currentToken_cons, List.tail_cons]
            exact e2
        · -- untagged key
          rename_i hnasc hndesc
          obtain ⟨c2, h2, hk2, hninv2, hrep2⟩ := ihOBC _ ts1 a r h
          refine ⟨c1 ++ c2, ?_, by simp; omega, ?_, ?_⟩
          · rw [h1, h2, List.append_assoc]
          · intro ch
            simp [hninv1 ch, hninv2 ch]
          · intro fuel2 r2 hf2 hh
            obtain ⟨f2, rfl, hle⟩ := succ_le_dest hf2
            have e1 : parseExpression f2 0 (c1 ++ (c2 ++ r2)) =
                Except.ok (e0, c2 ++ r2) := by
              refine hrep1 f2 _ hle ?_
              rw [h2]
              exact headD_append_congr hh
            have e2 : parseOrderbyCont f2 e0 (c2 ++ r2) = Except.ok (a, r2) :=
              hrep2 f2 r2 hle hh
            have hcur : currentToken (c2 ++ r2) = currentToken ts1 := by
              simp only [currentToken]
              rw [h2]
              exact headD_append_congr hh
            simp only [List.append_assoc, parseOrderby]
            rw [e1]
            split
            · rename_i heb
              cases heb
            · rename_i e0x ts1x hok
              cases hok
              split
              · rename_i hbad
                rw [hcur] at hbad
                exact absurd hbad hnasc
              · rename_i hbad
                rw [hcur] at hbad
                exact absurd hbad hndesc
              · exact e2
    · -- parseOrderbyCont
      intro key ts a r h
      simp only [parseOrderbyCont] at h
      split at h
      · -- comma: continue the key loop
        rename_i hcomma
        split at h
        · simp at h
        · rename_i es ts1 hrec
          simp at h
          obtain ⟨ha, hr⟩ := h
          obtain ⟨c2, h2, hk2, hninv2, hrep2⟩ := ihOB ts.tail es ts1 hrec
          have hts : ts = Token.comma :: ts.tail :=
            currentToken_shape hcomma (by simp)
          refine ⟨Token.comma :: c2, ?_, by simp, ?_, ?_⟩
          · conv_lhs => rw [hts, h2, hr]
            simp
          · intro ch
            simp [hninv2 ch]
          · intro fuel2 r2 hf2 hh
            obtain ⟨f2, rfl, hle⟩ := succ_le_dest hf2
            have e2 : parseOrderby f2 (c2 ++ r2) = Except.ok (es, r2) :=
              hrep2 f2 r2 hle (by rw [hh, hr])
            show parseOrderbyCont (f2 + 1) key (Token.comma :: (c2 ++ r2)) = _
            simp only [parseOrderbyCont, currentToken_cons, List.tail_cons]
            simp [e2, ha]
      · -- no comma: stop the key loop
        rename_i hncomma
        simp at h
        obtain ⟨ha, hr⟩ := h
        refine ⟨[], by simp [hr], by simp, by simp, ?_⟩
        intro fuel2 r2 hf2 hh
        obtain ⟨f2, rfl, hle⟩ := succ_le_dest hf2
        have hcur : currentToken r2 = currentToken ts := by
          simp only [currentToken]
          rw [hh, hr]
        show parseOrderbyCont (f2 + 1) key r2 = Except.ok (a, r2)
        simp only [parseOrderbyCont, hcur]
        rw [if_neg hncomma, ← ha]
    · -- parseColumnConstraints
      intro ts a r h
      simp only [parseColumnConstraints] at h
      split at h
      · -- PRIMARY KEY
        rename_i hprim
        split at h
        · rename_i hkey
          split at h
          · simp at h
          · rename_i cs ts2 hrec
            simp at h
            obtain ⟨ha, hr⟩ := h
            obtain ⟨c2, h2, hk2, hninv2, hrep2⟩ := ihCC ts.tail.tail cs ts2 hrec
            have hts : ts = Token.keyword Keyword.primary :: ts.tail :=
              currentToken_shape hprim (by simp)
            have htst : ts.tail = Token.keyword Keyword.key :: ts.tail.tail :=
              currentToken_shape hkey (by simp)
            refine ⟨Token.keyword Keyword.primary :: Token.keyword Keyword.key ::
              c2, ?_, by simp, ?_, ?_⟩
            · conv_lhs => rw [hts, htst, h2, hr]
              simp
            · intro ch
              simp [hninv2 ch]
            · intro fuel2 r2 hf2 hh
              obtain ⟨f2, rfl, hle⟩ := succ_le_dest hf2
              have e2 : parseColumnConstraints f2 (c2 ++ r2) = Except.ok (cs, r2) :=
                hrep2 f2 r2 hle (by rw [hh, hr])
              show parseColumnConstraints (f2 + 1) (Token.keyword Keyword.primary ::
                Token.keyword Keyword.key :: (c2 ++ r2)) = _
              simp only [parseColumnConstraints, currentToken_cons, List.tail_cons]
              simp [e2, ha]
        · simp at h
      · -- NOT NULL
        rename_i hnot
        split at h
        · rename_i hnull
          split at h
          · simp at h
          · rename_i cs ts2 hrec
            simp at h
            obtain ⟨ha, hr⟩ := h
            obtain ⟨c2, h2, hk2, hninv2, hrep2⟩ := ihCC ts.tail.tail cs ts2 hrec
            have hts : ts = Token.keyword Keyword.not :: ts.tail :=
              currentToken_shape hnot (by simp)
            have htst : ts.tail = Token.keyword Keyword.null :: ts.tail.tail :=
              currentToken_shape hnull (by simp)
            refine ⟨Token.keyword Keyword.not :: Token.keyword Keyword.null ::
              c2, ?_, by simp, ?_, ?_⟩
            · conv_lhs => rw [hts, htst, h2, hr]
              simp
            · intro ch
              simp [hninv2 ch]
            · intro fuel2 r2 hf2 hh
              obtain ⟨f2, rfl, hle⟩ := succ_le_dest hf2
              have e2 : parseColumnConstraints f2 (c2 ++ r2) = Except.ok (cs, r2) :=
                hrep2 f2 r2 hle (by rw [hh, hr])
              show parseColumnConstraints (f2 + 1) (Token.keyword Keyword.not ::
                Token.keyword Keyword.null :: (c2 ++ r2)) = _
              simp only [parseColumnConstraints, currentToken_cons, List.tail_cons]
              simp [e2, ha]
        · simp at h
      · -- CHECK ( expression )
        rename_i hcheck
        split at h
        · simp at h
        · rename_i u1 ts1 hexp
          split at h
          · simp at h
          · rename_i e ts2 hsub
            split at h
            · simp at h
            · rename_i u2 ts3 hexp2
              split at h
              · simp at h
              · rename_i cs ts4 hrec
                simp at h
                obtain ⟨ha, hr⟩ := h
                have hts : ts = Token.keyword Keyword.check :: ts.tail :=
                  currentToken_shape hcheck (by simp)
                have h1 : ts.tail = Token.leftParentheses :: ts1 :=
                  expectToken_shape (by simp) hexp
                obtain ⟨c1, h2, hk1, hninv1, hrep1⟩ := ihE 0 ts1 e ts2 hsub
                have h3 : ts2 = Token.rightParentheses :: ts3 :=
                  expectToken_shape (by simp) hexp2
                obtain ⟨c2, h4, hk2, hninv2, hrep2⟩ := ihCC ts3 cs ts4 hrec
                refine ⟨Token.keyword Keyword.check :: Token.leftParentheses ::
                  (c1 ++ Token.rightParentheses :: c2), ?_, by simp, ?_, ?_⟩
                · conv_lhs => rw [hts, h1, h2, h3, h4, hr]
                  simp
                · intro ch
                  simp [hninv1 ch, hninv2 ch]
                · intro fuel2 r2 hf2 hh
                  obtain ⟨f2, rfl, hle⟩ := succ_le_dest hf2
                  have e1 : parseExpression f2 0
                      (c1 ++ (Token.rightParentheses :: (c2 ++ r2))) =
                      Except.ok (e, Token.rightParentheses :: (c2 ++ r2)) := by
                    refine hrep1 f2 _ hle ?_
                    rw [h3]
                    rfl
                  have e2 : parseColumnConstraints f2 (c2 ++ r2) =
                      Except.ok (cs, r2) := hrep2 f2 r2 hle (by rw [hh, hr])
                  show parseColumnConstraints (f2 + 1)
                    (Token.keyword Keyword.check :: Token.leftParentheses ::
                      ((c1 ++ Token.rightParentheses :: c2) ++ r2)) = _
                  rw [show (c1 ++ Token.rightParentheses :: c2) ++ r2 =
                    c1 ++ (Token.rightParentheses :: (c2 ++ r2)) by simp]
                  simp only [parseColumnConstraints, currentToken_cons,
                    List.tail_cons]
                  rw [expectToken_replay]
                  simp only []
                  rw [e1]
                  simp [expectToken_replay, e2, ha]
      · -- no constraint keyword: stop without consuming
        rename_i hn1 hn2 hn3
        simp at h
        obtain ⟨ha, hr⟩ := h
        refine ⟨[], by simp [hr], by simp, by simp, ?_⟩
        intro fuel2 r2 hf2 hh
        obtain ⟨f2, rfl, hle⟩ := succ_le_dest hf2
        have hcur : currentToken r2 = currentToken ts := by
          simp only [currentToken]
          rw [hh, hr]
        show parseColumnConstraints (f2 + 1) r2 = Except.ok (a, r2)
        simp only [parseColumnConstraints]
        split
        · rename_i hbad
          rw [hcur] at hbad
          exact absurd hbad hn1
        · rename_i hbad
          rw [hcur] at hbad
          exact absurd hbad hn2
        · rename_i hbad
          rw [hcur] at hbad
          exact absurd hbad hn3
        · rw [← ha]
    · -- parseColumnDefinition
      intro ts a r h
      simp only [parseColumnDefinition] at h
      split at h
      · rename_i name hname
        split at h
        · simp at h
        · rename_i ty ts1 hty
          split at h
          · simp at h
          · rename_i cs ts2 hcs
            simp at h
            obtain ⟨ha, hr⟩ := h
            have hts : ts = Token.identifier name :: ts.tail :=
              currentToken_shape hname (by simp)
            obtain ⟨c1, h1, hk1, hninv1, hrep1⟩ := parseColumnType_replay hty
            obtain ⟨c2, h2, hk2, hninv2, hrep2⟩ := ihCC ts1 cs ts2 hcs
            refine ⟨Token.identifier name :: (c1 ++ c2), ?_, ?_, ?_, ?_⟩
            · conv_lhs => rw [hts, h1, h2, hr]
              simp
            · simp
              omega
            · intro ch
              simp [hninv1 ch, hninv2 ch]
            · intro fuel2 r2 hf2 hh
              obtain ⟨f2, rfl, hle⟩ := succ_le_dest hf2
              have e1 : parseColumnType (c1 ++ (c2 ++ r2)) =
                  Except.ok (ty, c2 ++ r2) := hrep1 (c2 ++ r2)
              have e2 : parseColumnConstraints f2 (c2 ++ r2) =
                  Except.ok (cs, r2) := hrep2 f2 r2 hle (by rw [hh, hr])
              show parseColumnDefinition (f2 + 1)
                ((Token.identifier name :: (c1 ++ c2)) ++ r2) = _
              rw [show (Token.identifier name :: (c1 ++ c2)) ++ r2 =
                Token.identifier name :: (c1 ++ (c2 ++ r2)) by simp]
              simp only [parseColumnDefinition, currentToken_cons, List.tail_cons]
              rw [e1]
              simp [e2, ha]
      · simp at h
    · -- parseCreateTableColumns
      intro ts a r h
      simp only [parseCreateTableColumns] at h
      split at h
      · simp at h
      · rename_i col ts1 hcd
        obtain ⟨c1, h1, hk1, hninv1, hrep1⟩ := ihCD ts col ts1 hcd
        split at h
        · -- comma: further column definitions
          rename_i hcomma
          split at h
          · simp at h
          · rename_i cols ts2 hrec
            simp at h
            obtain ⟨ha, hr⟩ := h
            obtain ⟨c2, h2, hk2, hninv2, hrep2⟩ := ihCTC ts1.tail cols ts2 hrec
            have hts1 : ts1 = Token.comma :: ts1.tail :=
              currentToken_shape hcomma (by simp)
            refine ⟨c1 ++ Token.comma :: c2, ?_, by simp; omega, ?_, ?_⟩
            · conv_lhs => rw [h1, hts1, h2, hr]
              simp
            · intro ch
              simp [hninv1 ch, hninv2 ch]
            · intro fuel2 r2 hf2 hh
              obtain ⟨f2, rfl, hle⟩ := succ_le_dest hf2
              have e1 : parseColumnDefinition f2
                  (c1 ++ (Token.comma :: (c2 ++ r2))) =
                  Except.ok (col, Token.comma :: (c2 ++ r2)) := by
                refine hrep1 f2 _ hle ?_
                rw [hts1]
                rfl
              have e2 : parseCreateTableColumns f2 (c2 ++ r2) =
                  Except.ok (cols, r2) := hrep2 f2 r2 hle (by rw [hh, hr])
              rw [show (c1 ++ Token.comma :: c2) ++ r2 =
                c1 ++ (Token.comma :: (c2 ++ r2)) by simp]
              simp only [parseCreateTableColumns]
              rw [e1]
              simp only [currentToken_cons, List.tail_cons]
              simp [e2, ha]
        · -- right parenthesis: the column list is closed
          rename_i hrp
          simp at h
          obtain ⟨ha, hr⟩ := h
          have hts1 : ts1 = Token.rightParentheses :: ts1.tail :=
            currentToken_shape hrp (by simp)
          refine ⟨c1 ++ [Token.rightParentheses], ?_, by simp; omega, ?_, ?_⟩
          · conv_lhs => rw [h1, hts1, hr]
            simp
          · intro ch
            simp [hninv1 ch]
          · intro fuel2 r2 hf2 hh
            obtain ⟨f2, rfl, hle⟩ := succ_le_dest hf2
            have e1 : parseColumnDefinition f2
                (c1 ++ (Token.rightParentheses :: r2)) =
                Except.ok (col, Token.rightParentheses :: r2) := by
              refine hrep1 f2 _ hle ?_
              rw [hts1]
              rfl
            rw [show (c1 ++ [Token.rightParentheses]) ++ r2 =
              c1 ++ (Token.rightParentheses :: r2) by simp]
            simp only [parseCreateTableColumns]
            rw [e1]
            simp [currentToken_cons, ha]
        · simp at h
    · -- parseCreateTable
      intro ts a r h
      simp only [parseCreateTable] at h
      split at h
      · rename_i name hname
        split at h
        · simp at h
        · rename_i u1 ts1 hexp
          split at h
          · simp at h
          · rename_i cols ts2 hctc
            split at h
            · simp at h
            · rename_i u2 ts3 hexp2
              simp at h
              obtain ⟨ha, hr⟩ := h
              cases ts with
              | nil => simp [currentToken] at hname
              | cons t0 tsr =>
                simp only [List.tail_cons] at hname hexp
                have htsr : tsr = Token.identifier name :: tsr.tail :=
                  currentToken_shape hname (by simp)
                have h1 : tsr.tail = Token.leftParentheses :: ts1 :=
                  expectToken_shape (by simp) hexp
                obtain ⟨c2, h2, hk2, hninv2, hrep2⟩ := ihCTC ts1 cols ts2 hctc
                have h3 : ts2 = Token.semicolon :: ts3 :=
                  expectToken_shape (by simp) hexp2
                refine ⟨t0, Token.identifier name :: Token.leftParentheses :: c2,
                  ?_, ?_, ?_⟩
                · conv_lhs => rw [htsr, h1, h2, h3, hr]
                  simp
                · intro ch
                  simp [hninv2 ch]
                · intro fuel2 r2 hf2
                  obtain ⟨f2, rfl, hle⟩ := succ_le_dest hf2
                  have e2 : parseCreateTableColumns f2
                      (c2 ++ (Token.semicolon :: r2)) =
                      Except.ok (cols, Token.semicolon :: r2) := by
                    refine hrep2 f2 _ hle ?_
                    rw [h3]
                    rfl
                  show parseCreateTable (f2 + 1) (t0 :: Token.identifier name ::
                    Token.leftParentheses :: (c2 ++ (Token.semicolon :: r2))) = _
                  simp only [parseCreateTable, currentToken_cons, List.tail_cons]
                  rw [expectToken_replay]
                  simp only []
                  rw [e2]
                  simp [expectToken_replay, ha]
      · simp at h
    · -- parseSelectFinish
      intro cols name w ts a r h
      simp only [parseSelectFinish] at h
      split at h
      · -- ORDER BY keys ;
        rename_i horder
        split at h
        · rename_i hby
          split at h
          · simp at h
          · rename_i ob ts1 hob
            split at h
            · simp at h
            · rename_i u ts2 hexp
              simp at h
              obtain ⟨ha, hr⟩ := h
              have hts : ts = Token.keyword Keyword.order :: ts.tail :=
                currentToken_shape horder (by simp)
              have htst : ts.tail = Token.keyword Keyword.by' :: ts.tail.tail :=
                currentToken_shape hby (by simp)
              obtain ⟨c2, h2, hk2, hninv2, hrep2⟩ := ihOB ts.tail.tail ob ts1 hob
              have h3 : ts1 = Token.semicolon :: ts2 :=
                expectToken_shape (by simp) hexp
              refine ⟨Token.keyword Keyword.order :: Token.keyword Keyword.by' ::
                c2, ?_, ?_, ?_⟩
              · conv_lhs => rw [hts, htst, h2, h3, hr]
                simp
              · intro ch
                simp [hninv2 ch]
              · intro fuel2 r2 hf2
                obtain ⟨f2, rfl, hle⟩ := succ_le_dest hf2
                have e2 : parseOrderby f2 (c2 ++ (Token.semicolon :: r2)) =
                    Except.ok (ob, Token.semicolon :: r2) := by
                  refine hrep2 f2 _ hle ?_
                  rw [h3]
                  rfl
                show parseSelectFinish (f2 + 1) cols name w
                  (Token.keyword Keyword.order :: Token.keyword Keyword.by' ::
                    (c2 ++ (Token.semicolon :: r2))) = _
                simp only [parseSelectFinish, currentToken_cons, List.tail_cons]
                rw [e2]
                simp [expectToken_replay, ha]
        · simp at h
      · -- no ORDER: the terminating semicolon follows directly
        rename_i hnorder
        split at h
        · simp at h
        · rename_i u ts2 hexp
          simp at h
          obtain ⟨ha, hr⟩ := h
          have hts : ts = Token.semicolon :: ts2 :=
            expectToken_shape (by simp) hexp
          refine ⟨[], ?_, by simp, ?_⟩
          · rw [hts, hr]
            rfl
          · intro fuel2 r2 hf2
            obtain ⟨f2, rfl, hle⟩ := succ_le_dest hf2
            show parseSelectFinish (f2 + 1) cols name w
              (Token.semicolon :: r2) = _
            simp only [parseSelectFinish, currentToken_cons]
            rw [if_neg (by simp)]
            rw [expectToken_replay]
            simp [ha]
    · -- parseSelect
      intro ts a r h
      simp only [parseSelect] at h
      split at h
      · simp at h
      · rename_i cols ts1 hsc
        obtain ⟨c1, h1, hk1, hninv1, hrep1⟩ := ihSC ts cols ts1 hsc
        split at h
        · -- FROM present
          rename_i hfrom
          split at h
          · rename_i name hname
            have hts1 : ts1 = Token.keyword Keyword.from' :: ts1.tail :=
              currentToken_shape hfrom (by simp)
            have hts1t : ts1.tail = Token.identifier name :: ts1.tail.tail :=
              currentToken_shape hname (by simp)
            split at h
            · -- WHERE present
              rename_i hwhere
              have hts1tt : ts1.tail.tail =
                  Token.keyword Keyword.where' :: ts1.tail.tail.tail :=
                currentToken_shape hwhere (by simp)
              split at h
              · simp at h
              · rename_i wexp ts2 hw
                obtain ⟨c2, h2, hk2, hninv2, hrep2⟩ :=
                  ihE 0 ts1.tail.tail.tail wexp ts2 hw
                obtain ⟨c3, h3, hninv3, hrep3⟩ := ihSF cols name (some wexp) ts2 a r h
                refine ⟨c1 ++ Token.keyword Keyword.from' :: Token.identifier name ::
                  Token.keyword Keyword.where' :: (c2 ++ c3), ?_, ?_, ?_⟩
                · conv_lhs => rw [h1, hts1, hts1t, hts1tt, h2, h3]
                  simp
                · intro ch
                  simp [hninv1 ch, hninv2 ch, hninv3 ch]
                · intro fuel2 r2 hf2
                  obtain ⟨f2, rfl, hle⟩ := succ_le_dest hf2
                  have e1 : parseSelectColumns f2 (c1 ++
                      (Token.keyword Keyword.from' :: Token.identifier name ::
                        Token.keyword Keyword.where' ::
                        (c2 ++ (c3 ++ (Token.semicolon :: r2))))) =
                      Except.ok (cols, Token.keyword Keyword.from' ::
                        Token.identifier name :: Token.keyword Keyword.where' ::
                        (c2 ++ (c3 ++ (Token.semicolon :: r2)))) := by
                    refine hrep1 f2 _ hle ?_
                    rw [hts1]
                    rfl
                  have e2 : parseExpression f2 0
                      (c2 ++ (c3 ++ (Token.semicolon :: r2))) =
                      Except.ok (wexp, c3 ++ (Token.semicolon :: r2)) := by
                    refine hrep2 f2 _ hle ?_
                    rw [h3]
                    exact headD_append_congr rfl
                  have e3 : parseSelectFinish f2 cols name (some wexp)
                      (c3 ++ (Token.semicolon :: r2)) = Except.ok (a, r2) :=
                    hrep3 f2 r2 hle
                  rw [show (c1 ++ Token.keyword Keyword.from' ::
                    Token.identifier name :: Token.keyword Keyword.where' ::
                    (c2 ++ c3)) ++ Token.semicolon :: r2 =
                    c1 ++ (Token.keyword Keyword.from' :: Token.identifier name ::
                      Token.keyword Keyword.where' ::
                      (c2 ++ (c3 ++ (Token.semicolon :: r2)))) by simp]
                  simp only [parseSelect]
                  rw [e1]
                  simp only [currentToken_cons, List.tail_cons]
                  simp only [if_true]
                  rw [e2]
                  exact e3
            · -- WHERE absent
              rename_i hnwhere
              obtain ⟨c3, h3, hninv3, hrep3⟩ := ihSF cols name none ts1.tail.tail a r h
              refine ⟨c1 ++ Token.keyword Keyword.from' :: Token.identifier name ::
                c3, ?_, ?_, ?_⟩
              · conv_lhs => rw [h1, hts1, hts1t, h3]
                simp
              · intro ch
                simp [hninv1 ch, hninv3 ch]
              · intro fuel2 r2 hf2
                obtain ⟨f2, rfl, hle⟩ := succ_le_dest hf2
                have e1 : parseSelectColumns f2 (c1 ++
                    (Token.keyword Keyword.from' :: Token.identifier name ::
                      (c3 ++ (Token.semicolon :: r2)))) =
                    Except.ok (cols, Token.keyword Keyword.from' ::
                      Token.identifier name :: (c3 ++ (Token.semicolon :: r2))) := by
                  refine hrep1 f2 _ hle ?_
                  rw [hts1]
                  rfl
                have hcur : currentToken (c3 ++ (Token.semicolon :: r2)) =
                    currentToken ts1.tail.tail := by
                  simp only [currentToken]
                  rw [h3]
                  exact headD_append_congr rfl
                have e3 : parseSelectFinish f2 cols name none
                    (c3 ++ (Token.semicolon :: r2)) = Except.ok (a, r2) :=
                  hrep3 f2 r2 hle
                rw [show (c1 ++ Token.keyword Keyword.from' ::
                  Token.identifier name :: c3) ++ Token.semicolon :: r2 =
                  c1 ++ (Token.keyword Keyword.from' :: Token.identifier name ::
                    (c3 ++ (Token.semicolon :: r2))) by simp]
                simp only [parseSelect]
                rw [e1]
                simp only [currentToken_cons, List.tail_cons]
                simp only [if_true]
                rw [if_neg (by rw [hcur]; exact hnwhere)]
                exact e3
          · simp at h
        · simp at h
    · -- parseStatementTokens
      intro ts a r h
      simp only [parseStatementTokens] at h
      split at h
      · -- SELECT
        rename_i hsel
        obtain ⟨c3, h3, hninv3, hrep3⟩ := ihSEL ts.tail a r h
        have hts : ts = Token.keyword Keyword.select :: ts.tail :=
          currentToken_shape hsel (by simp)
        refine ⟨Token.keyword Keyword.select :: c3, ?_, ?_, ?_⟩
        · conv_lhs => rw [hts, h3]
          simp
        · intro ch
          simp [hninv3 ch]
        · intro fuel2 r2 hf2
          obtain ⟨f2, rfl, hle⟩ := succ_le_dest hf2
          have e3 := hrep3 f2 r2 hle
          show parseStatementTokens (f2 + 1) (Token.keyword Keyword.select ::
            (c3 ++ Token.semicolon :: r2)) = _
          simp only [parseStatementTokens, currentToken_cons, List.tail_cons]
          exact e3
      · -- CREATE TABLE
        rename_i hcreate
        split at h
        · rename_i htable
          obtain ⟨t0, c0, h3, hninv3, hrep3⟩ := ihCT ts.tail a r h
          have hts : ts = Token.keyword Keyword.create :: ts.tail :=
            currentToken_shape hcreate (by simp)
          have ht0 : t0 = Token.keyword Keyword.table := by
            rw [h3, currentToken_cons] at htable
            exact htable
          subst ht0
          refine ⟨Token.keyword Keyword.create ::
            Token.keyword Keyword.table :: c0, ?_, ?_, ?_⟩
          · conv_lhs => rw [hts, h3]
            simp
          · intro ch
            simp [hninv3 ch]
          · intro fuel2 r2 hf2
            obtain ⟨f2, rfl, hle⟩ := succ_le_dest hf2
            have e3 := hrep3 f2 r2 hle
            show parseStatementTokens (f2 + 1) (Token.keyword Keyword.create ::
              Token.keyword Keyword.table :: (c0 ++ Token.semicolon :: r2)) = _
            simp only [parseStatementTokens, currentToken_cons, List.tail_cons]
            simp only [if_true]
            exact e3
        · simp at h
      · simp at h

/-- A replay splitting bounds the remainder length. -/
theorem replay_length {α : Type} {run : Nat → List Token → PResult α}
    {fuel k : Nat} {ts : List Token} {a : α} {r : List Token}
    (h : Replay run fuel k ts a r) : r.length + k ≤ ts.length := by
  obtain ⟨c, hc, hk, _⟩ := h
  rw [hc]
  simp
  omega

/-- Successful `parsePrimary` consumes at least one token. -/
theorem parsePrimary_len {fuel : Nat} {ts : List Token} {a : Expression}
    {r : List Token} (h : parsePrimary fuel ts = Except.ok (a, r)) :
    r.length + 1 ≤ ts.length :=
  replay_length ((replayAll fuel).1 ts a r h)

/-- Successful `parseExpression` consumes at least one token. -/
theorem parseExpression_len {fuel prec : Nat} {ts : List Token} {a : Expression}
    {r : List Token} (h : parseExpression fuel prec ts = Except.ok (a, r)) :
    r.length + 1 ≤ ts.length :=
  replay_length ((replayAll fuel).2.1 prec ts a r h)

/-- Successful `parseSelectColumns` consumes at least one token. -/
theorem parseSelectColumns_len {fuel : Nat} {ts : List Token}
    {a : List Expression} {r : List Token}
    (h : parseSelectColumns fuel ts = Except.ok (a, r)) :
    r.length + 1 ≤ ts.length :=
  replay_length ((replayAll fuel).2.2.2.1 ts a r h)

/-- Successful `parseColumnDefinition` consumes at least two tokens. -/
theorem parseColumnDefinition_len {fuel : Nat} {ts : List Token}
    {a : TableColumn} {r : List Token}
    (h : parseColumnDefinition fuel ts = Except.ok (a, r)) :
    r.length + 2 ≤ ts.length :=
  replay_length ((replayAll fuel).2.2.2.2.2.2.2.1 ts a r h)

/-- Re-typing of a propagated error that is not fuel exhaustion. -/
theorem error_eq_noFuel {α β : Type} {e : PError}
    (hcon : (Except.error e : PResult α) = Except.error PError.noFuel) :
    (Except.error e : PResult β) = Except.error PError.noFuel := by
  injection hcon with h
  rw [h]

/-- `expectToken` never reports fuel exhaustion. -/
theorem expectToken_noFuel (tok : Token) (ts : List Token) :
    expectToken tok ts ≠ Except.error PError.noFuel := by
  unfold expectToken
  split
  · simp
  · simp

/-- `parseColumnType` never reports fuel exhaustion. -/
theorem parseColumnType_noFuel (ts : List Token) :
    parseColumnType ts ≠ Except.error PError.noFuel := by
  unfold parseColumnType
  split
  · simp
  · simp
  · split
    · rename_i e hexp
      exact fun hcon => expectToken_noFuel _ _ (by rw [hexp]; exact error_eq_noFuel hcon)
    · split
      · split
        · rename_i e hexp
          exact fun hcon => expectToken_noFuel _ _ (by rw [hexp]; exact error_eq_noFuel hcon)
        · simp
      · simp
  · simp

/-- Fuel adequacy at a given fuel: with a budget linear in the remaining
token count, no parsing function ever exhausts its fuel. -/
def AdeqAll (fuel : Nat) : Prop :=
  (∀ ts : List Token, 4 * ts.length + 8 ≤ fuel →
      parsePrimary fuel ts ≠ Except.error PError.noFuel) ∧
  (∀ (prec : Nat) (ts : List Token), 4 * ts.length + 9 ≤ fuel →
      parseExpression fuel prec ts ≠ Except.error PError.noFuel) ∧
  (∀ (prec : Nat) (left : Expression) (ts : List Token), 4 * ts.length + 9 ≤ fuel →
      parseExpLoop fuel prec left ts ≠ Except.error PError.noFuel) ∧
  (∀ ts : List Token, 4 * ts.length + 10 ≤ fuel →
      parseSelectColumns fuel ts ≠ Except.error PError.noFuel) ∧
  (∀ ts : List Token, 4 * ts.length + 10 ≤ fuel →
      parseOrderby fuel ts ≠ Except.error PError.noFuel) ∧
  (∀ (key : Expression) (ts : List Token), 4 * ts.length + 8 ≤ fuel →
      parseOrderbyCont fuel key ts ≠ Except.error PError.noFuel) ∧
  (∀ ts : List Token, 4 * ts.length + 8 ≤ fuel →
      parseColumnConstraints fuel ts ≠ Except.error PError.noFuel) ∧
  (∀ ts : List Token, 4 * ts.length + 9 ≤ fuel →
      parseColumnDefinition fuel ts ≠ Except.error PError.noFuel) ∧
  (∀ ts : List Token, 4 * ts.length + 10 ≤ fuel →
      parseCreateTableColumns fuel ts ≠ Except.error PError.noFuel) ∧
  (∀ ts : List Token, 4 * ts.length + 11 ≤ fuel →
      parseCreateTable fuel ts ≠ Except.error PError.noFuel) ∧
  (∀ (cols : List Expression) (name : List Char) (w : Option Expression)
      (ts : List Token), 4 * ts.length + 8 ≤ fuel →
      parseSelectFinish fuel cols name w ts ≠ Except.error PError.noFuel) ∧
  (∀ ts : List Token, 4 * ts.length + 11 ≤ fuel →
      parseSelect fuel ts ≠ Except.error PError.noFuel) ∧
  (∀ ts : List Token, 4 * ts.length + 12 ≤ fuel →
      parseStatementTokens fuel ts ≠ Except.error PError.noFuel)

theorem adeqAll (fuel : Nat) : AdeqAll fuel := by
  induction fuel with
  | zero =>
    refine ⟨?_, ?_, ?_, ?_, ?_, ?_, ?_, ?_, ?_, ?_, ?_, ?_, ?_⟩ <;> intros <;>
      rename_i hlen <;> omega
  | succ fuel ih =>
    obtain ⟨ihP, ihE, ihL, ihSC, ihOB, ihOBC, ihCC, ihCD, ihCTC, ihCT, ihSF,
      ihSEL, ihST⟩ := ih
    refine ⟨?_, ?_, ?_, ?_, ?_, ?_, ?_, ?_, ?_, ?_, ?_, ?_, ?_⟩
    · -- parsePrimary
      intro ts hlen
      simp only [parsePrimary]
      split
      · simp
      · simp
      · simp
      · simp
      · simp
      · simp
      · -- parenthesized subexpression
        rename_i heq
        have hlts : ts.tail.length + 1 = ts.length := by
          rw [currentToken_shape heq (by simp)]
          simp
        split
        · rename_i e hsub
          exact fun hcon => ihE 0 ts.tail (by omega) (by rw [hsub]; exact error_eq_noFuel hcon)
        · split
          · simp
          · simp
      · -- unary minus
        rename_i heq
        have hlts : ts.tail.length + 1 = ts.length := by
          rw [currentToken_shape heq (by simp)]
          simp
        split
        · rename_i e hsub
          exact fun hcon => ihE 7 ts.tail (by omega) (by rw [hsub]; exact error_eq_noFuel hcon)
        · simp
      · -- unary plus
        rename_i heq
        have hlts : ts.tail.length + 1 = ts.length := by
          rw [currentToken_shape heq (by simp)]
          simp
        split
        · rename_i e hsub
          exact fun hcon => ihE 7 ts.tail (by omega) (by rw [hsub]; exact error_eq_noFuel hcon)
        · simp
      · -- unary NOT
        rename_i heq
        have hlts : ts.tail.length + 1 = ts.length := by
          rw [currentToken_shape heq (by simp)]
          simp
        split
        · rename_i e hsub
          exact fun hcon => ihE 7 ts.tail (by omega) (by rw [hsub]; exact error_eq_noFuel hcon)
        · simp
      · simp
    · -- parseExpression
      intro prec ts hlen
      simp only [parseExpression]
      split
      · rename_i e hsub
        exact fun hcon => ihP ts (by omega) (by rw [hsub]; exact error_eq_noFuel hcon)
      · rename_i left ts1 hsub
        have hl1 : ts1.length + 1 ≤ ts.length := parsePrimary_len hsub
        exact ihL prec left ts1 (by omega)
    · -- parseExpLoop
      intro prec left ts hlen
      simp only [parseExpLoop]
      split
      · simp
      · rename_i op hop
        split
        · simp
        · rename_i hprec
          have hlts : ts.tail.length + 1 = ts.length := by
            have hne : currentToken ts ≠ Token.eof := by
              intro hcon
              rw [hcon] at hop
              simp [getBinaryOperator] at hop
            rw [currentToken_shape rfl hne]
            simp
          split
          · rename_i e hsub
            exact fun hcon =>
              ihE (getPrecedence op) ts.tail (by omega) (by rw [hsub]; exact error_eq_noFuel hcon)
          · rename_i right ts1 hsub
            have hl1 : ts1.length + 1 ≤ ts.tail.length := parseExpression_len hsub
            exact ihL prec (Expression.binaryOperation left op right) ts1 (by omega)
    · -- parseSelectColumns
      intro ts hlen
      simp only [parseSelectColumns]
      split
      · rename_i e hsub
        exact fun hcon => ihE 0 ts (by omega) (by rw [hsub]; exact error_eq_noFuel hcon)
      · rename_i e ts1 hsub
        have hl1 : ts1.length + 1 ≤ ts.length := parseExpression_len hsub
        split
        · rename_i hcomma
          have hlts1 : ts1.tail.length + 1 = ts1.length := by
            rw [currentToken_shape hcomma (by simp)]
            simp
          split
          · rename_i e2 hrec
            exact fun hcon => ihSC ts1.tail (by omega) (by rw [hrec]; exact error_eq_noFuel hcon)
          · simp
        · simp
    · -- parseOrderby
      intro ts hlen
      simp only [parseOrderby]
      split
      · rename_i e hsub
        exact fun hcon => ihE 0 ts (by omega) (by rw [hsub]; exact error_eq_noFuel hcon)
      · rename_i e0 ts1 hsub
        have hl1 : ts1.length + 1 ≤ ts.length := parseExpression_len hsub
        split
        · rename_i hasc
          have hlts1 : ts1.tail.length + 1 = ts1.length := by
            rw [currentToken_shape hasc (by simp)]
            simp
          exact ihOBC _ ts1.tail (by omega)
        · rename_i hdesc
          have hlts1 : ts1.tail.length + 1 = ts1.length := by
            rw [currentToken_shape hdesc (by simp)]
            simp
          exact ihOBC _ ts1.tail (by omega)
        · exact ihOBC _ ts1 (by omega)
    · -- parseOrderbyCont
      intro key ts hlen
      simp only [parseOrderbyCont]
      split
      · rename_i hcomma
        have hlts : ts.tail.length + 1 = ts.length := by
          rw [currentToken_shape hcomma (by simp)]
          simp
        split
        · rename_i e hrec
          exact fun hcon => ihOB ts.tail (by omega) (by rw [hrec]; exact error_eq_noFuel hcon)
        · simp
      · simp
    · -- parseColumnConstraints
      intro ts hlen
      simp only [parseColumnConstraints]
      split
      · rename_i hprim
        have hlts : ts.tail.length + 1 = ts.length := by
          rw [currentToken_shape hprim (by simp)]
          simp
        split
        · rename_i hkey
          have hlts2 : ts.tail.tail.length + 1 = ts.tail.length := by
            rw [currentToken_shape hkey (by simp)]
            simp
          split
          · rename_i e hrec
            exact fun hcon => ihCC ts.tail.tail (by omega) (by rw [hrec]; exact error_eq_noFuel hcon)
          · simp
        · simp
      · rename_i hnot
        have hlts : ts.tail.length + 1 = ts.length := by
          rw [currentToken_shape hnot (by simp)]
          simp
        split
        · rename_i hnull
          have hlts2 : ts.tail.tail.length + 1 = ts.tail.length := by
            rw [currentToken_shape hnull (by simp)]
            simp
          split
          · rename_i e hrec
            exact fun hcon => ihCC ts.tail.tail (by omega) (by rw [hrec]; exact error_eq_noFuel hcon)
          · simp
        · simp
      · rename_i hcheck
        have hlts : ts.tail.length + 1 = ts.length := by
          rw [currentToken_shape hcheck (by simp)]
          simp
        split
        · rename_i e hexp
          exact fun hcon => expectToken_noFuel _ _ (by rw [hexp]; exact error_eq_noFuel hcon)
        · rename_i u ts1 hexp
          have hl2 : ts.tail = Token.leftParentheses :: ts1 :=
            expectToken_shape (by simp) hexp
          have hl3 : ts1.length + 1 = ts.tail.length := by
            rw [hl2]
            simp
          split
          · rename_i e hsub
            exact fun hcon => ihE 0 ts1 (by omega) (by rw [hsub]; exact error_eq_noFuel hcon)
          · rename_i e ts2 hsub
            have hl4 : ts2.length + 1 ≤ ts1.length := parseExpression_len hsub
            split
            · rename_i e2 hexp2
              exact fun hcon => expectToken_noFuel _ _ (by rw [hexp2]; exact error_eq_noFuel hcon)
            · rename_i u2 ts3 hexp2
              have hl5 : ts2 = Token.rightParentheses :: ts3 :=
                expectToken_shape (by simp) hexp2
              have hl6 : ts3.length + 1 = ts2.length := by
                rw [hl5]
                simp
              split
              · rename_i e2 hrec
                exact fun hcon => ihCC ts3 (by omega) (by rw [hrec]; exact error_eq_noFuel hcon)
              · simp
      · simp
    · -- parseColumnDefinition
      intro ts hlen
      simp only [parseColumnDefinition]
      split
      · rename_i name hname
        have hlts : ts.tail.length + 1 = ts.length := by
          rw [currentToken_shape hname (by simp)]
          simp
        split
        · rename_i e hty
          exact fun hcon => parseColumnType_noFuel ts.tail (by rw [hty]; exact error_eq_noFuel hcon)
        · rename_i ty ts1 hty
          have hl1 : ts1.length + 1 ≤ ts.tail.length := by
            obtain ⟨c1, hc, hk, _, _⟩ := parseColumnType_replay hty
            rw [hc]
            simp
            omega
          split
          · rename_i e hcs
            exact fun hcon => ihCC ts1 (by omega) (by rw [hcs]; exact error_eq_noFuel hcon)
          · simp
      · simp
    · -- parseCreateTableColumns
      intro ts hlen
      simp only [parseCreateTableColumns]
      split
      · rename_i e hcd
        exact fun hcon => ihCD ts (by omega) (by rw [hcd]; exact error_eq_noFuel hcon)
      · rename_i col ts1 hcd
        have hl1 : ts1.length + 2 ≤ ts.length := parseColumnDefinition_len hcd
        split
        · rename_i hcomma
          have hlts1 : ts1.tail.length + 1 = ts1.length := by
            rw [currentToken_shape hcomma (by simp)]
            simp
          split
          · rename_i e hrec
            exact fun hcon => ihCTC ts1.tail (by omega) (by rw [hrec]; exact error_eq_noFuel hcon)
          · simp
        · simp
        · simp
    · -- parseCreateTable
      intro ts hlen
      simp only [parseCreateTable]
      split
      · rename_i name hname
        have hl0 : ts.tail.length ≤ ts.length := by
          simp [List.length_tail]
        have hl1 : ts.tail.tail.length + 1 = ts.tail.length := by
          rw [currentToken_shape hname (by simp)]
          simp
        split
        · rename_i e hexp
          exact fun hcon => expectToken_noFuel _ _ (by rw [hexp]; exact error_eq_noFuel hcon)
        · rename_i u ts1 hexp
          have hl2 : ts.tail.tail = Token.leftParentheses :: ts1 :=
            expectToken_shape (by simp) hexp
          have hl3 : ts1.length + 1 = ts.tail.tail.length := by
            rw [hl2]
            simp
          split
          · rename_i e hctc
            exact fun hcon => ihCTC ts1 (by omega) (by rw [hctc]; exact error_eq_noFuel hcon)
          · rename_i cols ts2 hctc
            split
            · rename_i e hexp2
              exact fun hcon => expectToken_noFuel _ _ (by rw [hexp2]; exact error_eq_noFuel hcon)
            · simp
      · simp
    · -- parseSelectFinish
      intro cols name w ts hlen
      simp only [parseSelectFinish]
      split
      · rename_i horder
        have hlts : ts.tail.length + 1 = ts.length := by
          rw [currentToken_shape horder (by simp)]
          simp
        split
        · rename_i hby
          have hlts2 : ts.tail.tail.length + 1 = ts.tail.length := by
            rw [currentToken_shape hby (by simp)]
            simp
          split
          · rename_i e hob
            exact fun hcon => ihOB ts.tail.tail (by omega) (by rw [hob]; exact error_eq_noFuel hcon)
          · rename_i ob ts1 hob
            split
            · rename_i e hexp
              exact fun hcon => expectToken_noFuel _ _ (by rw [hexp]; exact error_eq_noFuel hcon)
            · simp
        · simp
      · split
        · rename_i e hexp
          exact fun hcon => expectToken_noFuel _ _ (by rw [hexp]; exact error_eq_noFuel hcon)
        · simp
    · -- parseSelect
      intro ts hlen
      simp only [parseSelect]
      split
      · rename_i e hsc
        exact fun hcon => ihSC ts (by omega) (by rw [hsc]; exact error_eq_noFuel hcon)
      · rename_i cols ts1 hsc
        have hl1 : ts1.length + 1 ≤ ts.length := parseSelectColumns_len hsc
        split
        · rename_i hfrom
          have hlts1 : ts1.tail.length + 1 = ts1.length := by
            rw [currentToken_shape hfrom (by simp)]
            simp
          split
          · rename_i name hname
            have hlts2 : ts1.tail.tail.length + 1 = ts1.tail.length := by
              rw [currentToken_shape hname (by simp)]
              simp
            split
            · rename_i hwhere
              have hlts3 : ts1.tail.tail.tail.length + 1 = ts1.tail.tail.length := by
                rw [currentToken_shape hwhere (by simp)]
                simp
              split
              · rename_i e hw
                exact fun hcon => ihE 0 ts1.tail.tail.tail (by omega)
                  (by rw [hw]; exact error_eq_noFuel hcon)
              · rename_i wexp ts2 hw
                have hl2 : ts2.length + 1 ≤ ts1.tail.tail.tail.length :=
                  parseExpression_len hw
                exact ihSF cols name (some wexp) ts2 (by omega)
            · exact ihSF cols name none ts1.tail.tail (by omega)
          · simp
        · simp
    · -- parseStatementTokens
      intro ts hlen
      simp only [parseStatementTokens]
      split
      · rename_i hsel
        have hlts : ts.tail.length + 1 = ts.length := by
          rw [currentToken_shape hsel (by simp)]
          simp
        exact ihSEL ts.tail (by omega)
      · rename_i hcreate
        have hlts : ts.tail.length + 1 = ts.length := by
          rw [currentToken_shape hcreate (by simp)]
          simp
        split
        · exact ihCT ts.tail (by omega)
        · simp
      · simp

/-- Dropping a satisfied run never lengthens a list. -/
theorem length_dropWhile_le (p : Char → Bool) (l : List Char) :
    (l.dropWhile p).length ≤ l.length := by
  have hlen : (l.takeWhile p).length + (l.dropWhile p).length = l.length := by
    rw [← List.length_append, List.takeWhile_append_dropWhile]
  omega

/-- An append extends the dropped remainder when the run stops inside the
first part. -/
theorem dropWhile_append_pos {p : Char → Bool} {l1 : List Char}
    (l2 : List Char) (h : l1.dropWhile p ≠ []) :
    (l1 ++ l2).dropWhile p = l1.dropWhile p ++ l2 := by
  rw [List.dropWhile_append]
  rw [if_neg (by simp [List.isEmpty_iff, h])]

/-- An append leaves the taken run unchanged when the run stops inside the
first part. -/
theorem takeWhile_append_pos {p : Char → Bool} {l1 : List Char}
    (l2 : List Char) (h : l1.dropWhile p ≠ []) :
    (l1 ++ l2).takeWhile p = l1.takeWhile p := by
  rw [List.takeWhile_append]
  have hlen : (l1.takeWhile p).length + (l1.dropWhile p).length = l1.length := by
    rw [← List.length_append, List.takeWhile_append_dropWhile]
  rw [if_neg ?_]
  intro hcon
  have hz : (l1.dropWhile p).length = 0 := by omega
  exact h (List.length_eq_zero.mp hz)

/-- `takeUntilQuote` found its quote inside the scanned part, so an append
passes through. -/
theorem takeUntilQuote_extend {q : Char} :
    ∀ {l : List Char} {s r : List Char} (ext : List Char),
      takeUntilQuote q l = some (s, r) →
      takeUntilQuote q (l ++ ext) = some (s, r ++ ext) := by
  intro l
  induction l with
  | nil =>
    intro s r ext h
    simp [takeUntilQuote] at h
  | cons c l' ih =>
    intro s r ext h
    simp only [takeUntilQuote, List.cons_append] at h ⊢
    split at h
    · rename_i hq
      simp at h
      obtain ⟨hs, hr⟩ := h
      subst hs
      subst hr
      simp [hq]
    · rename_i hq
      rw [if_neg hq]
      cases htq : takeUntilQuote q l' with
      | none =>
        rw [htq] at h
        simp at h
      | some p =>
        obtain ⟨p1, p2⟩ := p
        rw [htq] at h
        simp at h
        obtain ⟨hs, hr⟩ := h
        simp only [List.append_eq]
        rw [ih ext htq]
        simp [← hs, hr]

/-- `readNumber` never yields a semicolon token. -/
theorem readNumber_fst_ne_semi (first : Char) (cs : List Char) :
    (readNumber first cs).1 ≠ Token.semicolon := by
  simp only [readNumber]
  split <;> simp

/-- `readIdentifierOrKeyword` never yields a semicolon token. -/
theorem readIdentifierOrKeyword_fst_ne_semi (first : Char) (cs : List Char) :
    (readIdentifierOrKeyword first cs).1 ≠ Token.semicolon := by
  simp only [readIdentifierOrKeyword]
  split <;> simp

/-- `readString` never yields a semicolon token. -/
theorem readString_fst_ne_semi (q : Char) (cs : List Char) :
    (readString q cs).1 ≠ Token.semicolon := by
  simp only [readString]
  split <;> simp

/-- `readNumber` scans identically under an appended continuation when it
stopped inside the original input. -/
theorem readNumber_extend {first : Char} {cs rest : List Char} {t : Token}
    (ext : List Char) (h : readNumber first cs = (t, rest)) (hne : rest ≠ []) :
    readNumber first (cs ++ ext) = (t, rest ++ ext) := by
  simp only [readNumber] at h ⊢
  split at h
  · rename_i hcond
    cases h
    rw [takeWhile_append_pos ext hne, dropWhile_append_pos ext hne, if_pos hcond]
  · rename_i hcond
    cases h
    rw [takeWhile_append_pos ext hne, dropWhile_append_pos ext hne, if_neg hcond]

/-- `readIdentifierOrKeyword` scans identically under an appended
continuation when it stopped inside the original input. -/
theorem readIdentifierOrKeyword_extend {first : Char} {cs rest : List Char}
    {t : Token} (ext : List Char) (h : readIdentifierOrKeyword first cs = (t, rest))
    (hne : rest ≠ []) :
    readIdentifierOrKeyword first (cs ++ ext) = (t, rest ++ ext) := by
  simp only [readIdentifierOrKeyword] at h ⊢
  split at h
  · rename_i k hk
    cases h
    rw [takeWhile_append_pos ext hne, dropWhile_append_pos ext hne, hk]
  · rename_i hk
    cases h
    rw [takeWhile_append_pos ext hne, dropWhile_append_pos ext hne, hk]

/-- `readString` scans identically under an appended continuation when the
closing quote lies inside the original input. -/
theorem readString_extend {q : Char} {cs rest : List Char} {t : Token}
    (ext : List Char) (h : readString q cs = (t, rest)) (hne : rest ≠ []) :
    readString q (cs ++ ext) = (t, rest ++ ext) := by
  simp only [readString] at h ⊢
  split at h
  · rename_i s r htq
    cases h
    rw [takeUntilQuote_extend ext htq]
  · cases h
    exact absurd rfl hne

/-- The classification step is stable under appending input, provided the
scan did not stop at the very end of the input or produced the
(one-character, never-peeking) semicolon token. -/
theorem dispatchToken_extend {c : Char} {rest0 rest : List Char} {t : Token}
    (ext : List Char) (h : dispatchToken c rest0 = (t, rest))
    (hne : rest ≠ [] ∨ t = Token.semicolon) :
    dispatchToken c (rest0 ++ ext) = (t, rest ++ ext) := by
  unfold dispatchToken at h ⊢
  by_cases hc1 : isAsciiDigit c = true
  · rw [if_pos hc1] at h
    rw [if_pos hc1]
    have hner : rest ≠ [] := by
      rcases hne with hne | hsemi
      · exact hne
      · rw [hsemi] at h
        have hf := readNumber_fst_ne_semi c rest0
        rw [h] at hf
        simp at hf
    exact readNumber_extend ext h hner
  · rw [if_neg hc1] at h
    rw [if_neg hc1]
    by_cases hc2 : isWordStart c = true
    · rw [if_pos hc2] at h
      rw [if_pos hc2]
      have hner : rest ≠ [] := by
        rcases hne with hne | hsemi
        · exact hne
        · rw [hsemi] at h
          have hf := readIdentifierOrKeyword_fst_ne_semi c rest0
          rw [h] at hf
          simp at hf
      exact readIdentifierOrKeyword_extend ext h hner
    · rw [if_neg hc2] at h
      rw [if_neg hc2]
      by_cases hc3 : (c = '\'' || c = '"') = true
      · rw [if_pos hc3] at h
        rw [if_pos hc3]
        have hner : rest ≠ [] := by
          rcases hne with hne | hsemi
          · exact hne
          · rw [hsemi] at h
            have hf := readString_fst_ne_semi c rest0
            rw [h] at hf
            simp at hf
        exact readString_extend ext h hner
      · rw [if_neg hc3] at h
        rw [if_neg hc3]
        by_cases hc4 : c = '('
        · rw [if_pos hc4] at h
          cases h
          rw [if_pos hc4]
        · rw [if_neg hc4] at h
          rw [if_neg hc4]
          by_cases hc5 : c = ')'
          · rw [if_pos hc5] at h
            cases h
            rw [if_pos hc5]
          · rw [if_neg hc5] at h
            rw [if_neg hc5]
            by_cases hc6 : c = '>'
            · rw [if_pos hc6] at h
              rw [if_pos hc6]
              by_cases hp : rest0.head? = some '='
              · rw [if_pos hp] at h
                cases h
                cases rest0 with
                | nil => simp at hp
                | cons d r' =>
                  simp at hp
                  rw [List.cons_append]
                  rw [if_pos (by simp [hp])]
                  simp
              · rw [if_neg hp] at h
                cases h
                have hner : rest0 ≠ [] := by
                  rcases hne with hne | hsemi
                  · exact hne
                  · simp at hsemi
                cases rest0 with
                | nil => exact absurd rfl hner
                | cons d r' =>
                  rw [List.cons_append]
                  rw [if_neg (by simpa using hp)]
            · rw [if_neg hc6] at h
              rw [if_neg hc6]
              by_cases hc7 : c = '<'
              · rw [if_pos hc7] at h
                rw [if_pos hc7]
                by_cases hp : rest0.head? = some '='
                · rw [if_pos hp] at h
                  cases h
                  cases rest0 with
                  | nil => simp at hp
                  | cons d r' =>
                    simp at hp
                    rw [List.cons_append]
                    rw [if_pos (by simp [hp])]
                    simp
                · rw [if_neg hp] at h
                  cases h
                  have hner : rest0 ≠ [] := by
                    rcases hne with hne | hsemi
                    · exact hne
                    · simp at hsemi
                  cases rest0 with
                  | nil => exact absurd rfl hner
                  | cons d r' =>
                    rw [List.cons_append]
                    rw [if_neg (by simpa using hp)]
              · rw [if_neg hc7] at h
                rw [if_neg hc7]
                by_cases hc8 : c = '='
                · rw [if_pos hc8] at h
                  cases h
                  rw [if_pos hc8]
                · rw [if_neg hc8] at h
                  rw [if_neg hc8]
                  by_cases hc9 : c = '!'
                  · rw [if_pos hc9] at h
                    rw [if_pos hc9]
                    by_cases hp : rest0.head? = some '='
                    · rw [if_pos hp] at h
                      cases h
                      cases rest0 with
                      | nil => simp at hp
                      | cons d r' =>
                        simp at hp
                        rw [List.cons_append]
                        rw [if_pos (by simp [hp])]
                        simp
                    · rw [if_neg hp] at h
                      cases h
                      have hner : rest0 ≠ [] := by
                        rcases hne with hne | hsemi
                        · exact hne
                        · simp at hsemi
                      cases rest0 with
                      | nil => exact absurd rfl hner
                      | cons d r' =>
                        rw [List.cons_append]
                        rw [if_neg (by simpa using hp)]
                  · rw [if_neg hc9] at h
                    rw [if_neg hc9]
                    by_cases hc10 : c = '*'
                    · rw [if_pos hc10] at h
                      cases h
                      rw [if_pos hc10]
                    · rw [if_neg hc10] at h
                      rw [if_neg hc10]
                      by_cases hc11 : c = '/'
                      · rw [if_pos hc11] at h
                        cases h
                        rw [if_pos hc11]
                      · rw [if_neg hc11] at h
                        rw [if_neg hc11]
                        by_cases hc12 : c = '-'
                        · rw [if_pos hc12] at h
                          cases h
                          rw [if_pos hc12]
                        · rw [if_neg hc12] at h
                          rw [if_neg hc12]
                          by_cases hc13 : c = '+'
                          · rw [if_pos hc13] at h
                            cases h
                            rw [if_pos hc13]
                          · rw [if_neg hc13] at h
                            rw [if_neg hc13]
                            by_cases hc14 : c = ','
                            · rw [if_pos hc14] at h
                              cases h
                              rw [if_pos hc14]
                            · rw [if_neg hc14] at h
                              rw [if_neg hc14]
                              by_cases hc15 : c = ';'
                              · rw [if_pos hc15] at h
                                cases h
                                rw [if_pos hc15]
                              · rw [if_neg hc15] at h
                                rw [if_neg hc15]
                                cases h
                                rfl

/-- One tokenizer step is stable under appending input, provided the step
did not stop at the very end of the input or produced the (one-character,
never-peeking) semicolon token. -/
theorem nextToken_extend {cs rest : List Char} {t : Token} (ext : List Char)
    (h : nextToken cs = some (t, rest))
    (hne : rest ≠ [] ∨ t = Token.semicolon) :
    nextToken (cs ++ ext) = some (t, rest ++ ext) := by
  unfold nextToken at h ⊢
  cases hsw : skipWhitespace cs with
  | nil =>
    simp only [hsw] at h
    exact Option.noConfusion h
  | cons c rest0 =>
    simp only [hsw, Option.some.injEq] at h
    have hsw2 : skipWhitespace (cs ++ ext) = c :: (rest0 ++ ext) := by
      unfold skipWhitespace at hsw ⊢
      rw [dropWhile_append_pos ext (by rw [hsw]; simp), hsw]
      rfl
    simp only [hsw2]
    rw [dispatchToken_extend ext h hne]

/-- `readNumber` leaves exactly the non-digit remainder. -/
theorem readNumber_snd (first : Char) (cs : List Char) :
    (readNumber first cs).2 = cs.dropWhile isAsciiDigit := by
  simp only [readNumber]
  split <;> rfl

/-- `readIdentifierOrKeyword` leaves exactly the non-word remainder. -/
theorem readIdentifierOrKeyword_snd (first : Char) (cs : List Char) :
    (readIdentifierOrKeyword first cs).2 = cs.dropWhile isWordContinue := by
  simp only [readIdentifierOrKeyword]
  split <;> rfl

/-- `takeUntilQuote` strictly shrinks the input when it succeeds. -/
theorem takeUntilQuote_len {q : Char} :
    ∀ {l s r : List Char}, takeUntilQuote q l = some (s, r) →
      r.length < l.length := by
  intro l
  induction l with
  | nil =>
    intro s r h
    simp [takeUntilQuote] at h
  | cons c l' ih =>
    intro s r h
    simp only [takeUntilQuote] at h
    split at h
    · simp at h
      obtain ⟨hs, hr⟩ := h
      subst hr
      simp
    · cases htq : takeUntilQuote q l' with
      | none =>
        rw [htq] at h
        simp at h
      | some p =>
        obtain ⟨p1, p2⟩ := p
        rw [htq] at h
        simp at h
        obtain ⟨hs, hr⟩ := h
        subst hr
        have := ih htq
        simp
        omega

/-- `readString` never lengthens the remainder. -/
theorem readString_snd_len (q : Char) (cs : List Char) :
    (readString q cs).2.length ≤ cs.length := by
  simp only [readString]
  split
  · rename_i s r htq
    exact Nat.le_of_lt (takeUntilQuote_len htq)
  · simp

/-- The classification step never lengthens the remainder. -/
theorem dispatchToken_snd_len (c : Char) (rest : List Char) :
    (dispatchToken c rest).2.length ≤ rest.length := by
  unfold dispatchToken
  by_cases h1 : isAsciiDigit c = true
  · rw [if_pos h1, readNumber_snd]
    exact length_dropWhile_le _ _
  rw [if_neg h1]
  by_cases h2 : isWordStart c = true
  · rw [if_pos h2, readIdentifierOrKeyword_snd]
    exact length_dropWhile_le _ _
  rw [if_neg h2]
  by_cases h3 : (c = '\'' || c = '"') = true
  · rw [if_pos h3]
    exact readString_snd_len _ _
  rw [if_neg h3]
  by_cases h4 : c = '('
  · rw [if_pos h4]
  rw [if_neg h4]
  by_cases h5 : c = ')'
  · rw [if_pos h5]
  rw [if_neg h5]
  by_cases h6 : c = '>'
  · rw [if_pos h6]
    by_cases hp6 : rest.head? = some '='
    · rw [if_pos hp6]
      cases rest with
      | nil => exact le_rfl
      | cons d r => exact Nat.le_succ _
    · rw [if_neg hp6]
  rw [if_neg h6]
  by_cases h7 : c = '<'
  · rw [if_pos h7]
    by_cases hp7 : rest.head? = some '='
    · rw [if_pos hp7]
      cases rest with
      | nil => exact le_rfl
      | cons d r => exact Nat.le_succ _
    · rw [if_neg hp7]
  rw [if_neg h7]
  by_cases h8 : c = '='
  · rw [if_pos h8]
  rw [if_neg h8]
  by_cases h9 : c = '!'
  · rw [if_pos h9]
    by_cases hp9 : rest.head? = some '='
    · rw [if_pos hp9]
      cases rest with
      | nil => exact le_rfl
      | cons d r => exact Nat.le_succ _
    · rw [if_neg hp9]
  rw [if_neg h9]
  by_cases h10 : c = '*'
  · rw [if_pos h10]
  rw [if_neg h10]
  by_cases h11 : c = '/'
  · rw [if_pos h11]
  rw [if_neg h11]
  by_cases h12 : c = '-'
  · rw [if_pos h12]
  rw [if_neg h12]
  by_cases h13 : c = '+'
  · rw [if_pos h13]
  rw [if_neg h13]
  by_cases h14 : c = ','
  · rw [if_pos h14]
  rw [if_neg h14]
  by_cases h15 : c = ';'
  · rw [if_pos h15]
  rw [if_neg h15]

/-- One tokenizer step strictly consumes input. -/
theorem nextToken_shrink {cs : List Char} {t : Token} {r : List Char}
    (h : nextToken cs = some (t, r)) : r.length < cs.length := by
  unfold nextToken at h
  cases hsw : skipWhitespace cs with
  | nil =>
    simp only [hsw] at h
    exact Option.noConfusion h
  | cons c rest0 =>
    simp only [hsw, Option.some.injEq] at h
    have h1 : (dispatchToken c rest0).2.length ≤ rest0.length :=
      dispatchToken_snd_len c rest0
    rw [h] at h1
    have h2 : rest0.length + 1 ≤ cs.length := by
      have hd := length_dropWhile_le rustIsWhitespace cs
      unfold skipWhitespace at hsw
      rw [hsw] at hd
      simpa using hd
    simp at h1
    omega

/-- The materialisation fuel is irrelevant once it covers the input
length. -/
theorem tokenizeAux_eq_of_le :
    ∀ (f g : Nat) (cs : List Char), cs.length ≤ g → g ≤ f →
      tokenizeAux g cs = tokenizeAux cs.length cs := by
  intro f
  induction f with
  | zero =>
    intro g cs hg hf
    have hg0 : g = 0 := by omega
    have hc0 : cs.length = 0 := by omega
    rw [hg0, hc0]
  | succ f ihf =>
    intro g cs hg hgf
    cases g with
    | zero =>
      have hc0 : cs.length = 0 := by omega
      rw [hc0]
    | succ g' =>
      cases hlen : cs.length with
      | zero =>
        have hcs : cs = [] := List.length_eq_zero.mp hlen
        subst hcs
        simp [tokenizeAux, nextToken, skipWhitespace]
      | succ m =>
        simp only [tokenizeAux]
        cases hnt : nextToken cs with
        | none => rfl
        | some p =>
          obtain ⟨t, r⟩ := p
          have hr := nextToken_shrink hnt
          show t :: tokenizeAux g' r = t :: tokenizeAux m r
          rw [ihf g' r (by omega) (by omega), ihf m r (by omega) (by omega)]

/-- Unfolding equation of the materialised token stream. -/
theorem tokenize_eq (cs : List Char) :
    tokenize cs = (match nextToken cs with
      | none => []
      | some (t, r) => t :: tokenize r) := by
  unfold tokenize
  cases hlen : cs.length with
  | zero =>
    have hcs : cs = [] := List.length_eq_zero.mp hlen
    subst hcs
    simp [tokenizeAux, nextToken, skipWhitespace]
  | succ m =>
    simp only [tokenizeAux]
    cases hnt : nextToken cs with
    | none => rfl
    | some p =>
      obtain ⟨t, r⟩ := p
      have hr := nextToken_shrink hnt
      show t :: tokenizeAux m r = t :: tokenize r
      rw [tokenizeAux_eq_of_le m m r (by omega) (by omega)]
      rfl

/-- Inversion of a nonempty token stream. -/
theorem tokenize_cons_inv {cs : List Char} {t : Token} {tl : List Token}
    (h : tokenize cs = t :: tl) :
    ∃ cs1, nextToken cs = some (t, cs1) ∧ tokenize cs1 = tl := by
  rw [tokenize_eq] at h
  cases hnt : nextToken cs with
  | none =>
    rw [hnt] at h
    simp at h
  | some p =>
    obtain ⟨t', r⟩ := p
    rw [hnt] at h
    simp at h
    obtain ⟨ht, htl⟩ := h
    refine ⟨r, ?_, htl⟩
    rw [ht]

/-- The token stream never has more tokens than input characters. -/
theorem tokenize_length_le : ∀ (f : Nat) (cs : List Char),
    (tokenizeAux f cs).length ≤ cs.length := by
  intro f
  induction f with
  | zero => intro cs; simp [tokenizeAux]
  | succ f ihf =>
    intro cs
    simp only [tokenizeAux]
    cases hnt : nextToken cs with
    | none => simp
    | some p =>
      obtain ⟨t, r⟩ := p
      have hr := nextToken_shrink hnt
      have := ihf r
      simp
      omega

/-- A token stream whose consumed part ends at a semicolon token is stable
under appending further input. -/
theorem tokenize_stable :
    ∀ (c0 : List Token) (cs ext : List Char) (rs : List Token),
      tokenize cs = c0 ++ Token.semicolon :: rs →
      ∃ rs2 : List Token, tokenize (cs ++ ext) = c0 ++ Token.semicolon :: rs2 := by
  intro c0
  induction c0 with
  | nil =>
    intro cs ext rs h
    simp only [List.nil_append] at h ⊢
    obtain ⟨cs1, hnt, htl⟩ := tokenize_cons_inv h
    have hnt2 := nextToken_extend ext hnt (Or.inr rfl)
    refine ⟨tokenize (cs1 ++ ext), ?_⟩
    rw [tokenize_eq (cs ++ ext), hnt2]
  | cons t c0' ih =>
    intro cs ext rs h
    rw [List.cons_append] at h
    obtain ⟨cs1, hnt, htl⟩ := tokenize_cons_inv h
    have hcs1 : cs1 ≠ [] := by
      intro hcon
      rw [hcon] at htl
      have hnil : tokenize ([] : List Char) = [] := rfl
      rw [hnil] at htl
      simp at htl
    have hnt2 := nextToken_extend ext hnt (Or.inl hcs1)
    obtain ⟨rs2, hih⟩ := ih cs1 ext rs htl
    refine ⟨rs2, ?_⟩
    rw [List.cons_append, tokenize_eq (cs ++ ext), hnt2]
    show t :: tokenize (cs1 ++ ext) = t :: (c0' ++ Token.semicolon :: rs2)
    rw [hih]

/-- Elements taken before the first semicolon of a semicolon-split token
stream lie in the part before that semicolon. -/
theorem mem_takeWhile_before_semi :
    ∀ (c0 r : List Token) (x : Token),
      x ∈ (c0 ++ Token.semicolon :: r).takeWhile
        (fun t => t != Token.semicolon) → x ∈ c0 := by
  intro c0
  induction c0 with
  | nil =>
    intro r x h
    simp [List.takeWhile] at h
  | cons t c0' ih =>
    intro r x h
    rw [List.cons_append, List.takeWhile_cons] at h
    by_cases ht : (t != Token.semicolon) = true
    · rw [if_pos ht] at h
      cases h with
      | head => exact List.mem_cons_self _ _
      | tail _ h' => exact List.mem_cons_of_mem _ (ih r x h')
    · rw [if_neg ht] at h
      simp at h

/-- C1 counterexample: the input "SELECT a FROM t;@" contains the
unrecognized character '@' (tokenized as an `Invalid` token), yet
`parse_statement` succeeds, because the offending token lies after the
terminating semicolon in the never-inspected trailing input; likewise '@'
inside a quoted string literal is consumed verbatim and parsing succeeds.
This refutes the claim's quantification over such inputs. -/
theorem claim_C1_counterexample :
    Token.invalid '@' ∈ tokenize "SELECT a FROM t;@".toList ∧
    parseStatement "SELECT a FROM t;@".toList =
      Except.ok (Statement.select [Expression.identifier ['a']] ['t'] none []) ∧
    parseStatement "SELECT '@' FROM t;".toList =
      Except.ok (Statement.select [Expression.string ['@']] ['t'] none []) :=
  ⟨by decide, by decide, by decide⟩

/-- C1 (amended): if an unrecognized character yields an `Invalid` token
anywhere before the first semicolon of the token stream, `parse_statement`
fails with an error (the embedding is total, so it never panics, and a
successful parse never consumes an `Invalid` token). -/
theorem claim_C1_invalid_rejected (cs : List Char) (ch : Char)
    (h : Token.invalid ch ∈
      (tokenize cs).takeWhile (fun t => t != Token.semicolon)) :
    ∃ e : PError, parseStatement cs = Except.error e := by
  unfold parseStatement
  cases hst : parseStatementTokens (4 * cs.length + 12) (tokenize cs) with
  | error e => exact ⟨e, rfl⟩
  | ok p =>
    exfalso
    obtain ⟨a, r⟩ := p
    have hrt := (replayAll (4 * cs.length + 12)).2.2.2.2.2.2.2.2.2.2.2.2
      (tokenize cs) a r hst
    obtain ⟨c0, htok, hnoinv, _⟩ := hrt
    rw [htok] at h
    exact hnoinv ch (mem_takeWhile_before_semi c0 r _ h)

/-- Witness for C1 (amended): on "SELECT @ FROM t;" the '@' becomes an
`Invalid` token before the semicolon and the parse fails. -/
theorem claim_C1_invalid_rejected_witness :
    Token.invalid '@' ∈
      (tokenize "SELECT @ FROM t;".toList).takeWhile
        (fun t => t != Token.semicolon) ∧
    ∃ e : PError, parseStatement "SELECT @ FROM t;".toList =
      Except.error e :=
  ⟨by decide, claim_C1_invalid_rejected "SELECT @ FROM t;".toList '@' (by decide)⟩

/-- C6: a successful parse consumes tokens exactly up to the terminating
semicolon and never inspects trailing input: appending any suffix to an
input that parses to a statement yields the same statement. -/
theorem claim_C6_trailing_input (s t : String) (stmt : Statement)
    (h : parseStatementStr s = Except.ok stmt) :
    parseStatementStr (s ++ t) = Except.ok stmt := by
  unfold parseStatementStr parseStatement at h ⊢
  cases hst : parseStatementTokens (4 * s.toList.length + 12)
      (tokenize s.toList) with
  | error e =>
    rw [hst] at h
    exact Except.noConfusion h
  | ok p =>
    obtain ⟨a, r⟩ := p
    rw [hst] at h
    have ha : a = stmt := by simpa using h
    subst ha
    have hrt := (replayAll (4 * s.toList.length + 12)).2.2.2.2.2.2.2.2.2.2.2.2
      (tokenize s.toList) a r hst
    obtain ⟨c0, htok, hnoinv, hrep⟩ := hrt
    obtain ⟨rs2, htok2⟩ := tokenize_stable c0 s.toList t.toList r htok
    have htl : (s ++ t).toList = s.toList ++ t.toList := by
      simp [String.toList]
    rw [htl, htok2]
    have hfuel : 4 * s.toList.length + 12 ≤
        4 * (s.toList ++ t.toList).length + 12 := by
      simp [List.length_append]
    rw [hrep (4 * (s.toList ++ t.toList).length + 12) rs2 hfuel]

/-- Witness for C6: "SELECT a FROM t;" parses to a statement, and stays
that statement under an arbitrary trailing suffix. -/
theorem claim_C6_trailing_input_witness :
    parseStatementStr "SELECT a FROM t;" = Except.ok
      (Statement.select [Expression.identifier ['a']] ['t'] none []) ∧
    parseStatementStr ("SELECT a FROM t;" ++ " garbage )) @@@") = Except.ok
      (Statement.select [Expression.identifier ['a']] ['t'] none []) :=
  ⟨by decide, claim_C6_trailing_input "SELECT a FROM t;" " garbage )) @@@"
    (Statement.select [Expression.identifier ['a']] ['t'] none []) (by decide)⟩

/-- C9: parsing terminates on every input: the token stream of a finite
input is finite (at most one token per character), and the fuel budget
`4 * |input| + 12` — the well-founded measure of the mutual recursion — is
always sufficient, so `parse_statement` never returns the distinguished
out-of-fuel error. -/
theorem claim_C9_termination (cs : List Char) :
    (tokenize cs).length ≤ cs.length ∧
    parseStatement cs ≠ Except.error PError.noFuel := by
  have hlen : (tokenize cs).length ≤ cs.length := tokenize_length_le cs.length cs
  refine ⟨hlen, ?_⟩
  have had := (adeqAll (4 * cs.length + 12)).2.2.2.2.2.2.2.2.2.2.2.2
    (tokenize cs) (by omega)
  intro hcon
  unfold parseStatement at hcon
  cases hst : parseStatementTokens (4 * cs.length + 12) (tokenize cs) with
  | error e =>
    rw [hst] at hcon
    have he : e = PError.noFuel := by simpa using hcon
    rw [he] at hst
    exact had hst
  | ok p =>
    obtain ⟨a, r⟩ := p
    rw [hst] at hcon
    exact Except.noConfusion hcon

end SqlProofs
